import Mathlib

/-!
# Verification of the iKeySort bin distribution sort

Shallow embedding of `src/index.rs` and `src/key_sort.rs` (key type
instantiated at `i32`, modelled as `ℤ` with explicit wrapping where the
Rust code wraps in release mode), together with proofs of the spec claims.

Conventions of the embedding:
* `usize` values are `ℕ` with explicit `% 2^64` where the source wraps;
  shifts `>> k` are `Nat.shiftRight`.
* Unchecked (`get_unchecked`) reads are modelled with a defaulted read
  `getE`; safe writes and swaps that would panic out of bounds are
  modelled as no-ops out of bounds.  All accesses are proved in bounds by
  the invariants, so the model agrees with the Rust semantics on every
  executed path.
* The two `while` loops of the cycle-chase phase have no structural
  termination measure, so they are modelled with explicit fuel and an
  `Option` result (`none` = fuel exhausted); totality with the supplied
  fuel is proved as a theorem.
* The `BinKey` capability (`key()` / `bin(&layout)`) is modelled by a key
  function `key : α → ℤ` with the canonical `bin` implementation
  `layout.index (key p)` that the data model of the spec prescribes and
  that the repository's own `Point` instance uses.
-/

namespace IKeySort

/-- `i32` range predicate: the type invariant of the Rust key type
(`-2^31 ≤ v < 2^31`, written with numerals to keep it kernel-evaluable). -/
def I32 (v : ℤ) : Prop := -2147483648 ≤ v ∧ v < 2147483648

instance (v : ℤ) : Decidable (I32 v) := by unfold I32; infer_instance

/-- Reinterpret a (possibly negative) integer as a 64-bit `usize`
(`as usize` on an `i64` value): reduction mod `2^64`. -/
def toUsize (x : ℤ) : ℕ := (x % 18446744073709551616).toNat

/-- Two's-complement wrap into the `i32` range (release-mode overflow
semantics of `i32` subtraction): `(x + 2^31) % 2^32 - 2^31`. -/
def wrap32 (x : ℤ) : ℤ := (x + 2147483648) % 4294967296 - 2147483648

/-- Two's-complement wrap into the `i64` range (`i64::wrapping_sub`):
`(x + 2^63) % 2^64 - 2^63`. -/
def wrap64 (x : ℤ) : ℤ :=
  (x + 9223372036854775808) % 18446744073709551616 - 9223372036854775808

/-- `<i64 as Offset>::offset`: `self.wrapping_sub(other) as usize`. -/
def offsetI64 (a b : ℤ) : ℕ := toUsize (wrap64 (a - b))

/-- `<i32 as Offset>::offset`: `(self as i64).wrapping_sub(other as i64) as usize`.
The widening casts are exact on `ℤ`. -/
def offsetI32 (a b : ℤ) : ℕ := toUsize (wrap64 (a - b))

/-- Bit length with explicit fuel (structurally recursive so that the
kernel can evaluate it): for `v < 2^f`, `sizeBits f v` is the number of
binary digits of `v`. -/
def sizeBits : ℕ → ℕ → ℕ
  | 0, _ => 0
  | f + 1, v => if v = 0 then 0 else sizeBits f (v / 2) + 1

/-- `value.leading_zeros()` on a 64-bit `usize`: `64 - bit_length(value)`. -/
def leadingZeros (value : ℕ) : ℕ := 64 - sizeBits 64 value

/-- `fn log2` (identical in `index.rs` and `key_sort.rs`):
`(usize::BITS - value.leading_zeros()) as usize`. -/
def log2 (value : ℕ) : ℕ := 64 - leadingZeros value

/-- `struct BinLayout` of `index.rs`, key type `i32`. -/
structure BinLayout where
  min_key : ℤ
  power : ℕ
  deriving Repr, DecidableEq

/-- `BinLayout::index`: `value.offset(self.min_key) >> self.power`. -/
def BinLayout.index (l : BinLayout) (value : ℤ) : ℕ :=
  offsetI32 value l.min_key >>> l.power

/-- `BinLayout::new` of `index.rs` (key type `i32`). -/
def BinLayout.new (rangeStart rangeEnd : ℤ) (elements_count : ℕ) : Option BinLayout :=
  let delta := offsetI32 rangeEnd rangeStart + 1
  let max_possible_bin_count := min (min delta (elements_count >>> 1)) 8192
  if max_possible_bin_count ≤ 1 then none
  else
    let scale := delta / max_possible_bin_count
    let scale_power := log2 scale
    some ⟨rangeStart, scale_power⟩

/-- `struct Bin` of `key_sort.rs`. -/
structure Bin where
  offset : ℕ
  count : ℕ
  index : ℕ
  deriving Repr, DecidableEq

instance : Inhabited Bin := ⟨⟨0, 0, 0⟩⟩

/-- `Bin::index()` (the method): `self.offset + self.index`. -/
def Bin.cursor (b : Bin) : ℕ := b.offset + b.index

/-- `Bin::end()`: `self.offset + self.count`. -/
def Bin.stop (b : Bin) : ℕ := b.offset + b.count

/-- Defaulted read: models `get_unchecked` (all uses are proved in bounds). -/
def getE {α : Type} [Inhabited α] (l : List α) (i : ℕ) : α := l.getD i default

/-- Write; out of bounds it is a no-op (all uses are proved in bounds). -/
def setE {α : Type} (l : List α) (i : ℕ) (v : α) : List α := l.set i v

/-- `Vec::swap`; guarded out of bounds (all uses are proved in bounds). -/
def swapE {α : Type} [Inhabited α] (l : List α) (i j : ℕ) : List α :=
  if i < l.length ∧ j < l.length then setE (setE l i (getE l j)) j (getE l i) else l

/-- The bin an element maps to: `p.bin(&layout)`, canonically
`layout.index(p.key())`. -/
def binOf {α : Type} (key : α → ℤ) (layout : BinLayout) (p : α) : ℕ :=
  layout.index (key p)

/-- Counting pass of `sort_by_bins` (lines 78–81):
`bins[p.bin(&layout)].count += 1` for each element. -/
def countPass {α : Type} (key : α → ℤ) (layout : BinLayout)
    (l : List α) (bins : List Bin) : List Bin :=
  l.foldl (fun bs p =>
    let i := binOf key layout p
    let b := getE bs i
    setE bs i ⟨b.offset, b.count + 1, b.index⟩) bins

/-- Local swap pass of `sort_by_bins` (lines 91–98): scan `i` over the
bin's region, swapping elements that already belong to `bin_index` to the
front cursor `j`.  Recursion is on the remaining iteration count. -/
def localLoop {α : Type} [Inhabited α] (key : α → ℤ) (layout : BinLayout)
    (bin_index : ℕ) : ℕ → ℕ → ℕ → List α → List α
  | 0, _, _, arr => arr
  | k + 1, i, j, arr =>
    if binOf key layout (getE arr i) = bin_index then
      localLoop key layout bin_index k (i + 1) (j + 1) (swapE arr i j)
    else
      localLoop key layout bin_index k (i + 1) j arr

/-- Prefix-sum pass of `sort_by_bins` (lines 83–99): assign offsets to
non-empty bins (empty bins are skipped before their offset is written) and
run the local swap pass on each non-empty bin's region. -/
def prefixLoop {α : Type} [Inhabited α] (key : α → ℤ) (layout : BinLayout) :
    ℕ → ℕ → List Bin → ℕ → List α → List Bin × ℕ × List α
  | 0, _, bins, offset, arr => (bins, offset, arr)
  | k + 1, bin_index, bins, offset, arr =>
    let bin := getE bins bin_index
    if bin.count = 0 then prefixLoop key layout k (bin_index + 1) bins offset arr
    else
      let bins' := setE bins bin_index ⟨offset, bin.count, bin.index⟩
      let arr' := localLoop key layout bin_index bin.count offset offset arr
      prefixLoop key layout k (bin_index + 1) bins' (offset + bin.count) arr'

/-- Inner swap chain of the cycle-chase phase (lines 117–124): carry
`this_value` to its destination bin's cursor, swapping out the occupant,
until the value in hand belongs to `bin_index`.  Fueled. -/
def chase {α : Type} [Inhabited α] (key : α → ℤ) (layout : BinLayout)
    (bin_index : ℕ) : ℕ → List Bin → List α → α → Option (List Bin × List α × α)
  | 0, _, _, _ => none
  | fuel + 1, bins, arr, this_value =>
    let next_bin_index := binOf key layout this_value
    if next_bin_index = bin_index then some (bins, arr, this_value)
    else
      let bin := getE bins next_bin_index
      let next_value_index := bin.cursor
      let bins' := setE bins next_bin_index ⟨bin.offset, bin.count, bin.index + 1⟩
      let value := getE arr next_value_index
      let arr' := setE arr next_value_index this_value
      chase key layout bin_index fuel bins' arr' value

/-- Middle loop of the cycle-chase phase (lines 113–128): place every slot
of the current bin's region, advancing the bin's own cursor.  Fueled. -/
def placeLoop {α : Type} [Inhabited α] (key : α → ℤ) (layout : BinLayout)
    (bin_index endPos : ℕ) : ℕ → List Bin → List α → ℕ → Option (List Bin × List α)
  | 0, _, _, _ => none
  | fuel + 1, bins, arr, iter_index =>
    if iter_index < endPos then
      match chase key layout bin_index (arr.length + 1) bins arr (getE arr iter_index) with
      | none => none
      | some (bins1, arr1, v) =>
        let arr2 := setE arr1 iter_index v
        let bin := getE bins1 bin_index
        let bins2 := setE bins1 bin_index ⟨bin.offset, bin.count, bin.index + 1⟩
        placeLoop key layout bin_index endPos fuel bins2 arr2 bin.cursor
    else some (bins, arr)

/-- Outer loop of the cycle-chase phase (lines 101–131): process bins
`0 .. bins.len() - 1` (the last bin is never processed), skipping bins
whose cursor has reached their count.  Recursion on the remaining bins. -/
def binPass {α : Type} [Inhabited α] (key : α → ℤ) (layout : BinLayout) :
    ℕ → ℕ → List Bin → List α → Option (List Bin × List α)
  | 0, _, bins, arr => some (bins, arr)
  | k + 1, bin_index, bins, arr =>
    let bin := getE bins bin_index
    if bin.count ≤ bin.index then binPass key layout k (bin_index + 1) bins arr
    else
      match placeLoop key layout bin_index bin.stop (arr.length + 2) bins arr bin.cursor with
      | none => none
      | some (bins1, arr1) => binPass key layout k (bin_index + 1) bins1 arr1

/-- The min-key scan of `sort_by_bins` (lines 50–58): seeded with
`self[0].key()` and folded with `min` over all elements. -/
def minKeyOf {α : Type} [Inhabited α] (key : α → ℤ) (l : List α) : ℤ :=
  l.foldl (fun m p => min (key p) m) (key (getE l 0))

/-- The max-key scan of `sort_by_bins` (lines 50–58). -/
def maxKeyOf {α : Type} [Inhabited α] (key : α → ℤ) (l : List α) : ℤ :=
  l.foldl (fun m p => max (key p) m) (key (getE l 0))

/-- Line 60: `let delta = (max_key - min_key) as usize;` — an `i32`
subtraction (wrapping in release mode) followed by a sign-extending cast. -/
def deltaOf {α : Type} [Inhabited α] (key : α → ℤ) (l : List α) : ℕ :=
  toUsize (wrap32 (maxKeyOf key l - minKeyOf key l))

/-- Line 61: `delta.min(self.len() >> 1).min(8192)`. -/
def mpbcOf {α : Type} [Inhabited α] (key : α → ℤ) (l : List α) : ℕ :=
  min (min (deltaOf key l) (l.length >>> 1)) 8192

/-- Lines 70–72: the layout built on the binning path. -/
def layoutOf {α : Type} [Inhabited α] (key : α → ℤ) (l : List α) : BinLayout :=
  ⟨minKeyOf key l, log2 (deltaOf key l / mpbcOf key l)⟩

/-- Line 74: `layout.index(max_key) + 1`. -/
def binCountOf {α : Type} [Inhabited α] (key : α → ℤ) (l : List α) : ℕ :=
  (layoutOf key l).index (maxKeyOf key l) + 1

/-- `sort_by_bins` (lines 45–134).  Returns the rearranged vector together
with the bin table (`none` only on fuel exhaustion, refuted by the
termination theorem). -/
def sortByBins {α : Type} [Inhabited α] (key : α → ℤ) (l : List α) :
    Option (List α × List Bin) :=
  if l.isEmpty then some (l, [])
  else if mpbcOf key l ≤ 1 then some (l, [⟨0, l.length, 0⟩])
  else
    let layout := layoutOf key l
    let bin_count := binCountOf key l
    let bins0 : List Bin := List.replicate bin_count ⟨0, 0, 0⟩
    let bins1 := countPass key layout l bins0
    let r := prefixLoop key layout bin_count 0 bins1 0 l
    match binPass key layout (r.1.length - 1) 0 r.1 r.2.2 with
    | none => none
    | some (bins3, arr3) => some (arr3, bins3)

/-- The layout derivation inlined in `sort_by_bins` (lines 50–72), exposed
as a function: `none` exactly when the single-bin skip branch (or the
empty early return) is taken. -/
def deriveInline {α : Type} [Inhabited α] (key : α → ℤ) (l : List α) : Option BinLayout :=
  if l.isEmpty then none
  else if mpbcOf key l ≤ 1 then none
  else some (layoutOf key l)

/-- `sort_by` comparator to a "not greater" relation: Rust's stable
`sort_by` leaves the slice weakly increasing in this relation. -/
def rLe {α : Type} (compare : α → α → Ordering) (a b : α) : Prop :=
  compare a b ≠ Ordering.gt

instance {α : Type} (compare : α → α → Ordering) : DecidableRel (rLe compare) := by
  unfold rLe; infer_instance

/-- `self[start..end].sort_by(..)`: Rust's `sort_by` is an injected stable
total-order comparison sort; it is modelled by a stable comparison sort
(insertion sort) of the sub-range. -/
def sortRange {α : Type} (compare : α → α → Ordering) (arr : List α)
    (start stop : ℕ) : List α :=
  arr.take start ++ List.insertionSort (rLe compare) ((arr.drop start).take (stop - start))
    ++ arr.drop stop

/-- The per-bin sorting loop of `sort_with_bins` (lines 142–148). -/
def sortBins {α : Type} (compare : α → α → Ordering) (bins : List Bin)
    (arr : List α) : List α :=
  bins.foldl (fun a bin =>
    if 1 < bin.count then sortRange compare a bin.offset (bin.offset + bin.count) else a) arr

/-- `sort_with_bins` (lines 136–149). -/
def sortWithBins {α : Type} [Inhabited α] (key : α → ℤ)
    (compare : α → α → Ordering) (l : List α) : Option (List α) :=
  (sortByBins key l).map (fun r => sortBins compare r.2 r.1)

/-- A standard full comparison sort of the whole sequence with the same
comparator (the spec's reference point for the equivalence claims): the
same stable comparison sort applied to the whole list. -/
def fullSort {α : Type} (compare : α → α → Ordering) (l : List α) : List α :=
  List.insertionSort (rLe compare) l

/-- An explicit total-order comparator on `ℤ` (kernel-evaluable). -/
def intCmp (a b : ℤ) : Ordering :=
  if a < b then Ordering.lt else if b < a then Ordering.gt else Ordering.eq

/-- The reverse of `intCmp`: a total-order comparator that is incompatible
with the key order. -/
def revCmp (a b : ℤ) : Ordering :=
  if b < a then Ordering.lt else if a < b then Ordering.gt else Ordering.eq

/-- All keys of the batch lie in the `i32` range (type invariant of the
Rust element type's key). -/
def KeysI32 {α : Type} (key : α → ℤ) (l : List α) : Prop := ∀ p ∈ l, I32 (key p)

instance {α : Type} (key : α → ℤ) (l : List α) : Decidable (KeysI32 key l) := by
  unfold KeysI32; infer_instance

/-! ### Auxiliary quantities for the invariant proofs -/

/-- Number of elements of the batch multiset landing in bin `c`. -/
def mcnt {α : Type} (key : α → ℤ) (layout : BinLayout) (M : Multiset α) (c : ℕ) : ℕ :=
  M.countP (fun p => binOf key layout p = c)

/-- Partial sums of a bin-size function: `presum f c = f 0 + ⋯ + f (c-1)`. -/
def presum (f : ℕ → ℕ) : ℕ → ℕ
  | 0 => 0
  | c + 1 => presum f c + f c

/-- Start offset of bin `c`'s region. -/
def psum {α : Type} (key : α → ℤ) (layout : BinLayout) (M : Multiset α) (c : ℕ) : ℕ :=
  presum (mcnt key layout M) c

/-- Remaining free capacity over the bin table: the termination measure of
the swap chain. -/
def meas (B : ℕ) (bins : List Bin) : ℕ :=
  ∑ c ∈ Finset.range B, ((getE bins c).count - (getE bins c).index)

/-- Outer invariant of the cycle-chase phase, holding between bins: bins
below `b` are fully resolved, bins from `b` on have a resolved prefix of
length `index`. -/
structure Inv {α : Type} [Inhabited α] (key : α → ℤ) (layout : BinLayout)
    (M : Multiset α) (B b : ℕ) (bins : List Bin) (arr : List α) : Prop where
  harr : (↑arr : Multiset α) = M
  hlen : bins.length = B
  hcount : ∀ c < B, (getE bins c).count = mcnt key layout M c
  hoff : ∀ c < B, 0 < (getE bins c).count →
    (getE bins c).offset = psum key layout M c
  hoff0 : ∀ c < B, (getE bins c).count = 0 → (getE bins c).offset = 0
  hearly : ∀ c < b, ∀ i, psum key layout M c ≤ i → i < psum key layout M (c + 1) →
    binOf key layout (getE arr i) = c
  hcur : ∀ c, b ≤ c → c < B → (getE bins c).index ≤ (getE bins c).count
  hplaced : ∀ c, b ≤ c → c < B → ∀ i, psum key layout M c ≤ i →
    i < psum key layout M c + (getE bins c).index → binOf key layout (getE arr i) = c
  hcurE : ∀ c < b, (getE bins c).index ≤ (getE bins c).count + 1

/-- Invariant of the inner swap chain: the value `hand` is in flight, the
slot `iter` still holds the duplicated original value `v0`. -/
structure ChInv {α : Type} [Inhabited α] (key : α → ℤ) (layout : BinLayout)
    (M : Multiset α) (B b iter : ℕ) (v0 : α) (bins : List Bin) (arr : List α)
    (hand : α) : Prop where
  hms : hand ::ₘ (↑arr : Multiset α) = v0 ::ₘ M
  hlen : bins.length = B
  hcount : ∀ c < B, (getE bins c).count = mcnt key layout M c
  hoff : ∀ c < B, 0 < (getE bins c).count →
    (getE bins c).offset = psum key layout M c
  hearly : ∀ c < b, ∀ i, psum key layout M c ≤ i → i < psum key layout M (c + 1) →
    binOf key layout (getE arr i) = c
  hcur : ∀ c, b < c → c < B → (getE bins c).index ≤ (getE bins c).count
  hplaced : ∀ c, b < c → c < B → ∀ i, psum key layout M c ≤ i →
    i < psum key layout M c + (getE bins c).index → binOf key layout (getE arr i) = c
  hhand : b ≤ binOf key layout hand
  hv0 : b ≤ binOf key layout v0
  hv0mem : v0 ∈ M
  hiterlo : psum key layout M b ≤ iter
  hiterhi : iter < psum key layout M b + mcnt key layout M b
  hatiter : getE arr iter = v0

/-- Invariant of the middle loop draining bin `b`: the region of `b` is
resolved up to `iter`; the bin's own cursor may run one ahead of `iter`. -/
structure MidInv {α : Type} [Inhabited α] (key : α → ℤ) (layout : BinLayout)
    (M : Multiset α) (B b : ℕ) (bins : List Bin) (arr : List α) (iter : ℕ) : Prop where
  harr : (↑arr : Multiset α) = M
  hlen : bins.length = B
  hcount : ∀ c < B, (getE bins c).count = mcnt key layout M c
  hoff : ∀ c < B, 0 < (getE bins c).count →
    (getE bins c).offset = psum key layout M c
  hoff0 : ∀ c < B, (getE bins c).count = 0 → (getE bins c).offset = 0
  hearly : ∀ c < b, ∀ i, psum key layout M c ≤ i → i < psum key layout M (c + 1) →
    binOf key layout (getE arr i) = c
  hcur : ∀ c, b < c → c < B → (getE bins c).index ≤ (getE bins c).count
  hplaced : ∀ c, b < c → c < B → ∀ i, psum key layout M c ≤ i →
    i < psum key layout M c + (getE bins c).index → binOf key layout (getE arr i) = c
  hcurE : ∀ c < b, (getE bins c).index ≤ (getE bins c).count + 1
  hres : ∀ i, psum key layout M b ≤ i → i < iter → binOf key layout (getE arr i) = b
  hiter : iter = psum key layout M b + (getE bins b).index ∨
    (1 ≤ (getE bins b).index ∧ iter + 1 = psum key layout M b + (getE bins b).index)
  hiterle : iter ≤ psum key layout M b + mcnt key layout M b
  hidxb : (getE bins b).index ≤ mcnt key layout M b + 1

/-! ### Basic access lemmas -/

theorem length_setE {α : Type} (l : List α) (i : ℕ) (v : α) :
    (setE l i v).length = l.length := List.length_set l i v

theorem getE_eq_getElem {α : Type} [Inhabited α] (l : List α) {i : ℕ}
    (h : i < l.length) : getE l i = l[i] := by
  simp [getE, List.getD_eq_getElem?_getD, List.getElem?_eq_getElem h]

theorem getE_mem {α : Type} [Inhabited α] (l : List α) {i : ℕ} (h : i < l.length) :
    getE l i ∈ l := by
  rw [getE_eq_getElem l h]; exact List.getElem_mem h

theorem getE_setE_self {α : Type} [Inhabited α] {l : List α} {i : ℕ}
    (h : i < l.length) (v : α) : getE (setE l i v) i = v := by
  have h' : i < (setE l i v).length := by rw [length_setE]; exact h
  rw [getE_eq_getElem _ h']
  simp [setE]

theorem getE_setE_ne {α : Type} [Inhabited α] (l : List α) {i j : ℕ}
    (h : i ≠ j) (v : α) : getE (setE l i v) j = getE l j := by
  simp [getE, setE, List.getD_eq_getElem?_getD, List.getElem?_set_ne h]

theorem multiset_setE {α : Type} [Inhabited α] :
    ∀ (l : List α) (i : ℕ), i < l.length → ∀ v : α,
      (getE l i) ::ₘ (↑(setE l i v) : Multiset α) = v ::ₘ (↑l : Multiset α)
  | a :: t, 0, _, v => by
    simp only [setE, getE, List.getD_cons_zero, List.set_cons_zero]
    rw [← Multiset.cons_coe, ← Multiset.cons_coe, Multiset.cons_swap]
  | a :: t, i + 1, h, v => by
    have ht : i < t.length := by simpa using h
    have ih := multiset_setE t i ht v
    have h1 : getE (a :: t) (i + 1) = getE t i := by simp [getE]
    have h2 : setE (a :: t) (i + 1) v = a :: setE t i v := by simp [setE]
    rw [h1, h2, ← Multiset.cons_coe, ← Multiset.cons_coe, Multiset.cons_swap,
      ih, Multiset.cons_swap]

theorem length_swapE {α : Type} [Inhabited α] (l : List α) (i j : ℕ) :
    (swapE l i j).length = l.length := by
  unfold swapE; split <;> simp [length_setE]

theorem multiset_swapE {α : Type} [Inhabited α] (l : List α) (i j : ℕ) :
    (↑(swapE l i j) : Multiset α) = (↑l : Multiset α) := by
  unfold swapE
  split
  · rename_i h
    obtain ⟨hi, hj⟩ := h
    have hjA : j < (setE l i (getE l j)).length := by rw [length_setE]; exact hj
    have h1 := multiset_setE l i hi (getE l j)
    have h2 := multiset_setE (setE l i (getE l j)) j hjA (getE l i)
    have hAj : getE (setE l i (getE l j)) j = getE l j := by
      by_cases hij : i = j
      · subst hij; exact getE_setE_self hi _
      · exact getE_setE_ne l hij _
    rw [hAj] at h2
    have h3 : (getE l j) ::ₘ (↑(setE (setE l i (getE l j)) j (getE l i)) : Multiset α) =
        (getE l j) ::ₘ (↑l : Multiset α) := by
      rw [h2]; exact h1
    exact (Multiset.cons_inj_right _).mp h3
  · rfl

/-! ### Counting elements by position -/

theorem countP_coe_eq_sum_range {α : Type} [Inhabited α] (P : α → Prop)
    [DecidablePred P] :
    ∀ l : List α, Multiset.countP P (↑l : Multiset α) =
      ∑ i ∈ Finset.range l.length, (if P (getE l i) then 1 else 0)
  | [] => by simp
  | a :: t => by
    have ih := countP_coe_eq_sum_range P t
    rw [← Multiset.cons_coe, Multiset.countP_cons]
    rw [List.length_cons, Finset.sum_range_succ']
    have h0 : getE (a :: t) 0 = a := by simp [getE]
    have hs : ∀ i, getE (a :: t) (i + 1) = getE t i := by intro i; simp [getE]
    simp only [h0, hs]
    rw [ih]

theorem seg_le_countP {α : Type} [Inhabited α] (P : α → Prop) [DecidablePred P]
    (l : List α) (s e : ℕ) (he : e ≤ l.length)
    (hseg : ∀ i, s ≤ i → i < e → P (getE l i)) :
    e - s ≤ Multiset.countP P (↑l : Multiset α) := by
  rw [countP_coe_eq_sum_range]
  have hsub : Finset.Ico s e ⊆ Finset.range l.length := by
    intro i hi
    rw [Finset.mem_Ico] at hi; rw [Finset.mem_range]; omega
  have h1 : ∑ i ∈ Finset.Ico s e, (if P (getE l i) then 1 else 0) ≤
      ∑ i ∈ Finset.range l.length, (if P (getE l i) then 1 else 0) :=
    Finset.sum_le_sum_of_subset_of_nonneg hsub (fun _ _ _ => by positivity)
  have h2 : ∑ i ∈ Finset.Ico s e, (if P (getE l i) then 1 else 0) = e - s := by
    have hone : ∀ i ∈ Finset.Ico s e, (if P (getE l i) then 1 else 0) = 1 := fun i hi => by
      rw [Finset.mem_Ico] at hi
      exact if_pos (hseg i hi.1 hi.2)
    rw [Finset.sum_congr rfl hone, Finset.sum_const, Nat.card_Ico, smul_eq_mul, mul_one]
  omega

theorem seg_lt_countP {α : Type} [Inhabited α] (P : α → Prop) [DecidablePred P]
    (l : List α) (s e j : ℕ) (he : e ≤ l.length)
    (hseg : ∀ i, s ≤ i → i < e → P (getE l i))
    (hj : j < l.length) (hjout : j < s ∨ e ≤ j) (hPj : P (getE l j)) :
    e - s + 1 ≤ Multiset.countP P (↑l : Multiset α) := by
  rw [countP_coe_eq_sum_range]
  have hjIco : j ∉ Finset.Ico s e := by
    rw [Finset.mem_Ico]; omega
  have hsub : insert j (Finset.Ico s e) ⊆ Finset.range l.length := by
    intro i hi
    rw [Finset.mem_insert, Finset.mem_Ico] at hi; rw [Finset.mem_range]; omega
  have h1 : ∑ i ∈ insert j (Finset.Ico s e), (if P (getE l i) then 1 else 0) ≤
      ∑ i ∈ Finset.range l.length, (if P (getE l i) then 1 else 0) :=
    Finset.sum_le_sum_of_subset_of_nonneg hsub (fun _ _ _ => by positivity)
  rw [Finset.sum_insert hjIco] at h1
  have h2 : ∑ i ∈ Finset.Ico s e, (if P (getE l i) then 1 else 0) = e - s := by
    have hone : ∀ i ∈ Finset.Ico s e, (if P (getE l i) then 1 else 0) = 1 := fun i hi => by
      rw [Finset.mem_Ico] at hi
      exact if_pos (hseg i hi.1 hi.2)
    rw [Finset.sum_congr rfl hone, Finset.sum_const, Nat.card_Ico, smul_eq_mul, mul_one]
  rw [h2, if_pos hPj] at h1
  omega

/-! ### Partial sums of bin counts -/

theorem presum_succ_eq (f : ℕ → ℕ) (c : ℕ) : presum f (c + 1) = presum f c + f c := rfl

theorem presum_mono (f : ℕ → ℕ) {a b : ℕ} (h : a ≤ b) : presum f a ≤ presum f b := by
  induction b with
  | zero =>
    have ha : a = 0 := by omega
    subst ha; exact le_refl _
  | succ n ih =>
    rcases Nat.lt_or_ge a (n + 1) with h' | h'
    · have h1 := ih (by omega)
      have h2 := presum_succ_eq f n
      omega
    · have ha : a = n + 1 := by omega
      subst ha; exact le_refl _

theorem countP_lt_succ {α : Type} (key : α → ℤ) (layout : BinLayout) (B : ℕ)
    (M : Multiset α) :
    Multiset.countP (fun p => binOf key layout p < B + 1) M =
      Multiset.countP (fun p => binOf key layout p < B) M + mcnt key layout M B := by
  induction M using Multiset.induction_on with
  | empty => simp [mcnt]
  | cons a s ih =>
    rw [Multiset.countP_cons, Multiset.countP_cons, mcnt, Multiset.countP_cons, ← mcnt]
    rw [ih]
    by_cases h1 : binOf key layout a < B
    · rw [if_pos (by omega), if_pos h1, if_neg (by omega)]; omega
    · by_cases h2 : binOf key layout a = B
      · rw [if_pos (by omega), if_neg h1, if_pos h2]; omega
      · rw [if_neg (by omega), if_neg h1, if_neg h2]; omega

theorem psum_eq_countP_lt {α : Type} (key : α → ℤ) (layout : BinLayout)
    (M : Multiset α) : ∀ B : ℕ,
    psum key layout M B = Multiset.countP (fun p => binOf key layout p < B) M
  | 0 => by
    rw [psum, presum, Multiset.countP_eq_zero.2 (fun p _ => by omega)]
  | B + 1 => by
    rw [psum, presum, ← psum, psum_eq_countP_lt key layout M B, countP_lt_succ]

theorem psum_top {α : Type} (key : α → ℤ) (layout : BinLayout) (M : Multiset α)
    (B : ℕ) (hinb : ∀ p ∈ M, binOf key layout p < B) :
    psum key layout M B = Multiset.card M := by
  rw [psum_eq_countP_lt, Multiset.countP_eq_card.2 hinb]

theorem psum_succ {α : Type} (key : α → ℤ) (layout : BinLayout) (M : Multiset α)
    (c : ℕ) : psum key layout M (c + 1) = psum key layout M c + mcnt key layout M c :=
  rfl

theorem psum_mono {α : Type} (key : α → ℤ) (layout : BinLayout) (M : Multiset α)
    {a b : ℕ} (h : a ≤ b) : psum key layout M a ≤ psum key layout M b :=
  presum_mono _ h

/-! ### Arithmetic facts about the offset and log2 primitives -/

theorem offsetI32_eq {a b : ℤ} (h0 : b ≤ a) (h1 : a - b < 2 ^ 64) :
    offsetI32 a b = (a - b).toNat := by
  unfold offsetI32 toUsize wrap64
  omega

theorem offsetI64_exact {a b : ℤ} (h0 : b ≤ a) (h1 : a - b < 2 ^ 64) :
    offsetI64 a b = (a - b).toNat := by
  unfold offsetI64 toUsize wrap64
  omega

theorem sizeBits_le : ∀ f v, sizeBits f v ≤ f
  | 0, _ => le_refl 0
  | f + 1, v => by
    rw [sizeBits]
    split
    · omega
    · have h := sizeBits_le f (v / 2)
      omega

theorem sizeBits_gt : ∀ f v, v < 2 ^ f → v < 2 ^ sizeBits f v
  | 0, v, h => by rw [sizeBits]; exact h
  | f + 1, v, h => by
    rw [sizeBits]
    split
    · rename_i h0
      rw [h0, pow_zero]
      omega
    · rename_i h0
      have hdiv : v / 2 < 2 ^ f := by
        rw [pow_succ] at h
        omega
      have ih := sizeBits_gt f (v / 2) hdiv
      rw [pow_succ]
      omega

theorem sizeBits_min : ∀ f v p, v < 2 ^ p → sizeBits f v ≤ p
  | 0, v, p, _ => by rw [sizeBits]; omega
  | f + 1, v, p, h => by
    rw [sizeBits]
    split
    · omega
    · rename_i h0
      cases p with
      | zero =>
        rw [pow_zero] at h
        omega
      | succ q =>
        have hdiv : v / 2 < 2 ^ q := by
          rw [pow_succ] at h
          omega
        have ih := sizeBits_min f (v / 2) q hdiv
        omega

theorem log2_eq_sizeBits (v : ℕ) : log2 v = sizeBits 64 v := by
  have hs := sizeBits_le 64 v
  unfold log2 leadingZeros
  omega

theorem index_mono (L : BinLayout) {a b : ℤ} (ha : L.min_key ≤ a) (hab : a ≤ b)
    (hb : b - L.min_key < 2 ^ 64) : L.index a ≤ L.index b := by
  unfold BinLayout.index
  rw [offsetI32_eq ha (by omega), offsetI32_eq (by omega) hb]
  rw [Nat.shiftRight_eq_div_pow, Nat.shiftRight_eq_div_pow]
  exact Nat.div_le_div_right (by omega)

/-! ### Key scan bounds -/

theorem foldl_min_le {α : Type} (key : α → ℤ) :
    ∀ (l : List α) (a : ℤ),
      l.foldl (fun m p => min (key p) m) a ≤ a ∧
      ∀ p ∈ l, l.foldl (fun m p => min (key p) m) a ≤ key p
  | [], a => ⟨le_refl a, fun p hp => absurd hp (List.not_mem_nil p)⟩
  | q :: t, a => by
    have ih := foldl_min_le key t (min (key q) a)
    constructor
    · exact le_trans ih.1 (min_le_right _ _)
    · intro p hp
      rcases List.mem_cons.mp hp with h | h
      · subst h; exact le_trans ih.1 (min_le_left _ _)
      · exact ih.2 p h

theorem foldl_max_le {α : Type} (key : α → ℤ) :
    ∀ (l : List α) (a : ℤ),
      a ≤ l.foldl (fun m p => max (key p) m) a ∧
      ∀ p ∈ l, key p ≤ l.foldl (fun m p => max (key p) m) a
  | [], a => ⟨le_refl a, fun p hp => absurd hp (List.not_mem_nil p)⟩
  | q :: t, a => by
    have ih := foldl_max_le key t (max (key q) a)
    constructor
    · exact le_trans (le_max_right _ _) ih.1
    · intro p hp
      rcases List.mem_cons.mp hp with h | h
      · subst h; exact le_trans (le_max_left _ _) ih.1
      · exact ih.2 p h

theorem minKeyOf_le {α : Type} [Inhabited α] (key : α → ℤ) (l : List α)
    {p : α} (hp : p ∈ l) : minKeyOf key l ≤ key p :=
  (foldl_min_le key l _).2 p hp

theorem le_maxKeyOf {α : Type} [Inhabited α] (key : α → ℤ) (l : List α)
    {p : α} (hp : p ∈ l) : key p ≤ maxKeyOf key l :=
  (foldl_max_le key l _).2 p hp

theorem minKeyOf_le_maxKeyOf {α : Type} [Inhabited α] (key : α → ℤ) (l : List α) :
    minKeyOf key l ≤ maxKeyOf key l :=
  le_trans (foldl_min_le key l _).1 (foldl_max_le key l _).1

theorem foldl_min_i32 {α : Type} (key : α → ℤ) :
    ∀ (l : List α) (a : ℤ), I32 a → (∀ p ∈ l, I32 (key p)) →
      I32 (l.foldl (fun m p => min (key p) m) a)
  | [], _, ha, _ => ha
  | q :: t, a, ha, hk => by
    have hq : I32 (key q) := hk q (List.mem_cons_self q t)
    refine foldl_min_i32 key t (min (key q) a) ?_ (fun p hp => hk p (List.mem_cons_of_mem q hp))
    unfold I32 at hq ha ⊢
    constructor
    · exact le_min hq.1 ha.1
    · exact lt_of_le_of_lt (min_le_left _ _) hq.2

theorem foldl_max_i32 {α : Type} (key : α → ℤ) :
    ∀ (l : List α) (a : ℤ), I32 a → (∀ p ∈ l, I32 (key p)) →
      I32 (l.foldl (fun m p => max (key p) m) a)
  | [], _, ha, _ => ha
  | q :: t, a, ha, hk => by
    have hq : I32 (key q) := hk q (List.mem_cons_self q t)
    refine foldl_max_i32 key t (max (key q) a) ?_ (fun p hp => hk p (List.mem_cons_of_mem q hp))
    unfold I32 at hq ha ⊢
    constructor
    · exact le_trans ha.1 (le_max_right _ _)
    · exact max_lt hq.2 ha.2

theorem i32_minKeyOf {α : Type} [Inhabited α] (key : α → ℤ) (l : List α)
    (hne : l ≠ []) (hk : KeysI32 key l) : I32 (minKeyOf key l) := by
  have h0 : getE l 0 ∈ l := getE_mem l (by
    cases l with
    | nil => exact absurd rfl hne
    | cons a t => simp)
  exact foldl_min_i32 key l _ (hk _ h0) hk

theorem i32_maxKeyOf {α : Type} [Inhabited α] (key : α → ℤ) (l : List α)
    (hne : l ≠ []) (hk : KeysI32 key l) : I32 (maxKeyOf key l) := by
  have h0 : getE l 0 ∈ l := getE_mem l (by
    cases l with
    | nil => exact absurd rfl hne
    | cons a t => simp)
  exact foldl_max_i32 key l _ (hk _ h0) hk

/-! ### The counting pass -/

theorem countPass_cons {α : Type} [Inhabited α] (key : α → ℤ) (layout : BinLayout)
    (p : α) (t : List α) (bins : List Bin) :
    countPass key layout (p :: t) bins =
      countPass key layout t
        (setE bins (binOf key layout p)
          ⟨(getE bins (binOf key layout p)).offset,
           (getE bins (binOf key layout p)).count + 1,
           (getE bins (binOf key layout p)).index⟩) := rfl

theorem countPass_spec {α : Type} [Inhabited α] (key : α → ℤ) (layout : BinLayout) :
    ∀ (l : List α) (bins : List Bin),
      (∀ p ∈ l, binOf key layout p < bins.length) →
      (countPass key layout l bins).length = bins.length ∧
      (∀ c, (getE (countPass key layout l bins) c).offset = (getE bins c).offset) ∧
      (∀ c, (getE (countPass key layout l bins) c).index = (getE bins c).index) ∧
      (∀ c, (getE (countPass key layout l bins) c).count =
        (getE bins c).count + Multiset.countP (fun p => binOf key layout p = c) (↑l : Multiset α))
  | [], bins, _ => by
    refine ⟨rfl, fun c => rfl, fun c => rfl, fun c => ?_⟩
    simp [countPass]
  | p :: t, bins, h => by
    set i := binOf key layout p with hi
    have hilen : i < bins.length := h p (List.mem_cons_self p t)
    set bins' := setE bins i
      ⟨(getE bins i).offset, (getE bins i).count + 1, (getE bins i).index⟩ with hbins'
    have hlen' : bins'.length = bins.length := length_setE ..
    have ih := countPass_spec key layout t bins'
      (fun q hq => by rw [hlen']; exact h q (List.mem_cons_of_mem p hq))
    rw [countPass_cons, ← hi, ← hbins']
    refine ⟨by rw [ih.1, hlen'], fun c => ?_, fun c => ?_, fun c => ?_⟩
    · rw [ih.2.1 c]
      by_cases hc : i = c
      · subst hc; rw [hbins', getE_setE_self hilen]
      · rw [hbins', getE_setE_ne bins hc]
    · rw [ih.2.2.1 c]
      by_cases hc : i = c
      · subst hc; rw [hbins', getE_setE_self hilen]
      · rw [hbins', getE_setE_ne bins hc]
    · rw [ih.2.2.2 c, ← Multiset.cons_coe, Multiset.countP_cons]
      by_cases hc : i = c
      · subst hc
        rw [hbins', getE_setE_self hilen, if_pos hi.symm]
        dsimp only
        omega
      · rw [hbins', getE_setE_ne bins hc, if_neg (by rw [← hi]; exact fun hh => hc hh)]
        omega

/-! ### The local swap pass and the prefix-sum pass -/

theorem localLoop_length {α : Type} [Inhabited α] (key : α → ℤ) (layout : BinLayout)
    (b : ℕ) : ∀ (k i j : ℕ) (arr : List α),
      (localLoop key layout b k i j arr).length = arr.length
  | 0, _, _, _ => rfl
  | k + 1, i, j, arr => by
    rw [localLoop]
    split
    · rw [localLoop_length key layout b k, length_swapE]
    · exact localLoop_length key layout b k _ _ _

theorem localLoop_multiset {α : Type} [Inhabited α] (key : α → ℤ) (layout : BinLayout)
    (b : ℕ) : ∀ (k i j : ℕ) (arr : List α),
      (↑(localLoop key layout b k i j arr) : Multiset α) = (↑arr : Multiset α)
  | 0, _, _, _ => rfl
  | k + 1, i, j, arr => by
    rw [localLoop]
    split
    · rw [localLoop_multiset key layout b k, multiset_swapE]
    · exact localLoop_multiset key layout b k _ _ _

theorem prefixLoop_spec {α : Type} [Inhabited α] (key : α → ℤ) (layout : BinLayout) :
    ∀ (k c : ℕ) (bins : List Bin) (off : ℕ) (arr : List α),
      c + k ≤ bins.length →
      off = presum (fun d => (getE bins d).count) c →
      ∀ bins' off' arr', prefixLoop key layout k c bins off arr = (bins', off', arr') →
      bins'.length = bins.length ∧
      (↑arr' : Multiset α) = (↑arr : Multiset α) ∧
      arr'.length = arr.length ∧
      (∀ d, (getE bins' d).count = (getE bins d).count) ∧
      (∀ d, (getE bins' d).index = (getE bins d).index) ∧
      (∀ d, c ≤ d → d < c + k → 0 < (getE bins d).count →
        (getE bins' d).offset = presum (fun e => (getE bins e).count) d) ∧
      (∀ d, d < c ∨ c + k ≤ d ∨ (getE bins d).count = 0 →
        (getE bins' d).offset = (getE bins d).offset)
  | 0, c, bins, off, arr => by
    intro _ _ bins' off' arr' heq
    rw [prefixLoop] at heq
    injection heq with h1 h23
    injection h23 with h2 h3
    subst h1; subst h3
    refine ⟨rfl, rfl, rfl, fun d => rfl, fun d => rfl, fun d hd1 hd2 _ => by omega,
      fun d _ => rfl⟩
  | k + 1, c, bins, off, arr => by
    intro hklen hoff bins' off' arr' heq
    have hclen : c < bins.length := by omega
    have hunf : prefixLoop key layout (k + 1) c bins off arr =
        if (getE bins c).count = 0 then prefixLoop key layout k (c + 1) bins off arr
        else prefixLoop key layout k (c + 1)
          (setE bins c ⟨off, (getE bins c).count, (getE bins c).index⟩)
          (off + (getE bins c).count)
          (localLoop key layout c (getE bins c).count off off arr) := rfl
    rw [hunf] at heq
    by_cases h0 : (getE bins c).count = 0
    · rw [if_pos h0] at heq
      have ih := prefixLoop_spec key layout k (c + 1) bins off arr
        (by omega)
        (by rw [hoff, presum_succ_eq]; omega)
        bins' off' arr' heq
      refine ⟨ih.1, ih.2.1, ih.2.2.1, ih.2.2.2.1, ih.2.2.2.2.1, ?_, ?_⟩
      · intro d hd1 hd2 hdpos
        rcases Nat.eq_or_lt_of_le hd1 with hd | hd
        · exfalso; rw [← hd] at hdpos; omega
        · exact ih.2.2.2.2.2.1 d hd (by omega) hdpos
      · intro d hd
        refine ih.2.2.2.2.2.2 d ?_
        rcases hd with h | h | h
        · exact Or.inl (by omega)
        · exact Or.inr (Or.inl (by omega))
        · exact Or.inr (Or.inr h)
    · rw [if_neg h0] at heq
      set bins1 := setE bins c ⟨off, (getE bins c).count, (getE bins c).index⟩ with hbins1
      have hlen1 : bins1.length = bins.length := length_setE ..
      have hgetc : getE bins1 c = ⟨off, (getE bins c).count, (getE bins c).index⟩ := by
        rw [hbins1]; exact getE_setE_self hclen _
      have hgetne : ∀ d, d ≠ c → getE bins1 d = getE bins d := by
        intro d hd
        rw [hbins1]; exact getE_setE_ne bins (fun hh => hd hh.symm) _
      have hcnt1 : (fun d => (getE bins1 d).count) = (fun d => (getE bins d).count) := by
        funext d
        by_cases hd : d = c
        · subst hd; rw [hgetc]
        · rw [hgetne d hd]
      have ih := prefixLoop_spec key layout k (c + 1) bins1 (off + (getE bins c).count)
        (localLoop key layout c (getE bins c).count off off arr)
        (by omega)
        (by rw [hcnt1, presum_succ_eq, hoff])
        bins' off' arr' heq
      refine ⟨by rw [ih.1, hlen1], ?_, ?_, ?_, ?_, ?_, ?_⟩
      · rw [ih.2.1, localLoop_multiset]
      · rw [ih.2.2.1, localLoop_length]
      · intro d
        rw [ih.2.2.2.1 d]
        exact congrArg (fun f => f d) hcnt1
      · intro d
        rw [ih.2.2.2.2.1 d]
        by_cases hd : d = c
        · subst hd; rw [hgetc]
        · rw [hgetne d hd]
      · intro d hd1 hd2 hdpos
        rcases Nat.eq_or_lt_of_le hd1 with hd | hd
        · subst hd
          rw [ih.2.2.2.2.2.2 c (Or.inl (by omega)), hgetc]
          exact hoff
        · have hne : d ≠ c := by omega
          have hstep := ih.2.2.2.2.2.1 d (by omega) (by omega)
            (by rw [hgetne d hne]; exact hdpos)
          rw [hcnt1] at hstep
          exact hstep
      · intro d hd
        rcases hd with h | h | h
        · rw [ih.2.2.2.2.2.2 d (Or.inl (by omega)), hgetne d (by omega)]
        · rw [ih.2.2.2.2.2.2 d (Or.inr (Or.inl (by omega))), hgetne d (by omega)]
        · have hdc : d ≠ c := fun hh => by rw [hh] at h; exact h0 h
          rw [ih.2.2.2.2.2.2 d (Or.inr (Or.inr (by rw [hgetne d hdc]; exact h))),
            hgetne d hdc]

/-! ### The swap chain -/

theorem countP_chain {α : Type} [Inhabited α] (P : α → Prop) [DecidablePred P]
    {hand v0 : α} {arr : List α} {M : Multiset α}
    (hms : hand ::ₘ (↑arr : Multiset α) = v0 ::ₘ M) :
    Multiset.countP P (↑arr : Multiset α) + (if P hand then 1 else 0) =
      Multiset.countP P M + (if P v0 then 1 else 0) := by
  have h := congrArg (Multiset.countP P) hms
  rwa [Multiset.countP_cons, Multiset.countP_cons] at h

theorem length_chain {α : Type} [Inhabited α] {hand v0 : α} {arr : List α}
    {M : Multiset α} (hms : hand ::ₘ (↑arr : Multiset α) = v0 ::ₘ M) :
    arr.length = Multiset.card M := by
  have h := congrArg Multiset.card hms
  rw [Multiset.card_cons, Multiset.card_cons, Multiset.coe_card] at h
  omega

/-- Below the boundary `psum b`, all slots are fully resolved; therefore any
slot at or past the boundary holds an element of bin `b` or later. -/
theorem no_stray {α : Type} [Inhabited α] (key : α → ℤ) (layout : BinLayout)
    (M : Multiset α) (b : ℕ) (arr : List α)
    (hearly : ∀ c < b, ∀ i, psum key layout M c ≤ i → i < psum key layout M (c + 1) →
      binOf key layout (getE arr i) = c)
    (hcnt : ∀ c < b, Multiset.countP (fun p => binOf key layout p = c)
      (↑arr : Multiset α) ≤ mcnt key layout M c)
    (j : ℕ) (hj : j < arr.length) (hjb : psum key layout M b ≤ j) :
    b ≤ binOf key layout (getE arr j) := by
  by_contra hcon
  push_neg at hcon
  set c := binOf key layout (getE arr j) with hc
  have hseg : ∀ i, psum key layout M c ≤ i →
      i < psum key layout M c + mcnt key layout M c → binOf key layout (getE arr i) = c := by
    intro i h1 h2
    exact hearly c hcon i h1 (by rw [psum_succ]; omega)
  have hce : psum key layout M c + mcnt key layout M c ≤ psum key layout M b := by
    have h1 := psum_mono key layout M (show c + 1 ≤ b by omega)
    rw [psum_succ] at h1
    omega
  have hcount := seg_lt_countP (fun p => binOf key layout p = c) arr
    (psum key layout M c) (psum key layout M c + mcnt key layout M c) j
    (by omega) hseg hj (Or.inr (by omega)) hc.symm
  have hle := hcnt c hcon
  omega

theorem chase_succ {α : Type} [Inhabited α] (key : α → ℤ) (layout : BinLayout)
    (b fuel : ℕ) (bins : List Bin) (arr : List α) (hand : α) :
    chase key layout b (fuel + 1) bins arr hand =
      if binOf key layout hand = b then some (bins, arr, hand)
      else
        chase key layout b fuel
          (setE bins (binOf key layout hand)
            ⟨(getE bins (binOf key layout hand)).offset,
             (getE bins (binOf key layout hand)).count,
             (getE bins (binOf key layout hand)).index + 1⟩)
          (setE arr (getE bins (binOf key layout hand)).cursor hand)
          (getE arr (getE bins (binOf key layout hand)).cursor) := rfl

theorem chase_spec {α : Type} [Inhabited α] (key : α → ℤ) (layout : BinLayout)
    (M : Multiset α) (B b iter : ℕ) (v0 : α)
    (hinb : ∀ p ∈ M, binOf key layout p < B) (hbB : b < B) :
    ∀ (fuel : ℕ) (bins : List Bin) (arr : List α) (hand : α),
      ChInv key layout M B b iter v0 bins arr hand →
      meas B bins < fuel →
      ∃ bins' arr' hand',
        chase key layout b fuel bins arr hand = some (bins', arr', hand') ∧
        ChInv key layout M B b iter v0 bins' arr' hand' ∧
        binOf key layout hand' = b ∧
        (∀ c, c ≤ b → getE bins' c = getE bins c) ∧
        (∀ c, (getE bins' c).offset = (getE bins c).offset ∧
          (getE bins' c).count = (getE bins c).count) ∧
        (∀ i, i < psum key layout M (b + 1) → getE arr' i = getE arr i)
  | 0, bins, arr, hand, _, hfuel => by omega
  | fuel + 1, bins, arr, hand, hch, hfuel => by
    rw [chase_succ]
    by_cases hhome : binOf key layout hand = b
    · rw [if_pos hhome]
      exact ⟨bins, arr, hand, rfl, hch, hhome, fun c _ => rfl, fun c => ⟨rfl, rfl⟩,
        fun i _ => rfl⟩
    · rw [if_neg hhome]
      set c := binOf key layout hand with hcdef
      have hbc : b < c := lt_of_le_of_ne hch.hhand (fun hh => hhome hh.symm)
      have hhandM : hand ∈ M := by
        have h1 : hand ∈ hand ::ₘ (↑arr : Multiset α) := Multiset.mem_cons_self _ _
        rw [hch.hms] at h1
        rcases Multiset.mem_cons.mp h1 with h | h
        · rw [h]; exact hch.hv0mem
        · exact h
      have hcB : c < B := by rw [hcdef]; exact hinb hand hhandM
      have hlenarr : arr.length = Multiset.card M := length_chain hch.hms
      have hpsumB : psum key layout M B = Multiset.card M := psum_top key layout M B hinb
      have hmcntpos : 0 < mcnt key layout M c := by
        rw [mcnt]
        refine Multiset.countP_pos.mpr ⟨hand, hhandM, hcdef.symm⟩
      have hcountc : (getE bins c).count = mcnt key layout M c := hch.hcount c hcB
      have hoffc : (getE bins c).offset = psum key layout M c :=
        hch.hoff c hcB (by omega)
      have hiterlt : iter < psum key layout M (b + 1) := by
        have := hch.hiterhi
        rw [psum_succ]
        omega
      have hpsumbc : psum key layout M (b + 1) ≤ psum key layout M c :=
        psum_mono key layout M (by omega)
      have hpsumcB : psum key layout M (c + 1) ≤ psum key layout M B :=
        psum_mono key layout M (by omega)
      have hpsc1 : psum key layout M (c + 1) =
          psum key layout M c + mcnt key layout M c := psum_succ key layout M c
      have hpsb1 : psum key layout M (b + 1) =
          psum key layout M b + mcnt key layout M b := psum_succ key layout M b
      have hmceq : mcnt key layout M c =
          Multiset.countP (fun p => binOf key layout p = c) M := rfl
      -- the destination bin's cursor has free capacity
      have hidx : (getE bins c).index < mcnt key layout M c := by
        by_contra hcon
        push_neg at hcon
        have hidxeq : (getE bins c).index = mcnt key layout M c :=
          le_antisymm (by rw [← hcountc]; exact hch.hcur c hbc hcB) hcon
        have hseg : ∀ i, psum key layout M c ≤ i →
            i < psum key layout M c + mcnt key layout M c →
            binOf key layout (getE arr i) = c := by
          intro i h1 h2
          exact hch.hplaced c hbc hcB i h1 (by omega)
        have hcc := countP_chain (fun p => binOf key layout p = c) hch.hms
        rw [if_pos hcdef.symm] at hcc
        by_cases hv0c : binOf key layout v0 = c
        · rw [if_pos hv0c] at hcc
          have hlt := seg_lt_countP (fun p => binOf key layout p = c) arr
            (psum key layout M c) (psum key layout M c + mcnt key layout M c) iter
            (by rw [← psum_succ]; omega) hseg
            (by omega)
            (Or.inl (by omega))
            (by rw [hch.hatiter]; exact hv0c)
          omega
        · rw [if_neg hv0c] at hcc
          have hle := seg_le_countP (fun p => binOf key layout p = c) arr
            (psum key layout M c) (psum key layout M c + mcnt key layout M c)
            (by rw [← psum_succ]; omega) hseg
          omega
      set j := (getE bins c).cursor with hjdef
      have hjval : j = psum key layout M c + (getE bins c).index := by
        rw [hjdef, Bin.cursor, hoffc]
      have hjlt : j < psum key layout M (c + 1) := by
        rw [psum_succ]; omega
      have hjlen : j < arr.length := by
        rw [hlenarr, ← hpsumB]; omega
      have hjge : psum key layout M (b + 1) ≤ j := by omega
      set bins1 := setE bins c
        ⟨(getE bins c).offset, (getE bins c).count, (getE bins c).index + 1⟩ with hbins1
      set arr1 := setE arr j hand with harr1
      set hand1 := getE arr j with hhand1
      have hclen : c < bins.length := by rw [hch.hlen]; exact hcB
      have hb1c : getE bins1 c =
          ⟨(getE bins c).offset, (getE bins c).count, (getE bins c).index + 1⟩ := by
        rw [hbins1]; exact getE_setE_self hclen _
      have hb1ne : ∀ d, d ≠ c → getE bins1 d = getE bins d := by
        intro d hd
        rw [hbins1]; exact getE_setE_ne bins (fun hh => hd hh.symm) _
      have ha1j : getE arr1 j = hand := by
        rw [harr1]; exact getE_setE_self hjlen _
      have ha1ne : ∀ i, i ≠ j → getE arr1 i = getE arr i := by
        intro i hi
        rw [harr1]; exact getE_setE_ne arr (fun hh => hi hh.symm) _
      have hmsstep : hand1 ::ₘ (↑arr1 : Multiset α) = hand ::ₘ (↑arr : Multiset α) := by
        rw [hhand1, harr1]
        exact multiset_setE arr j hjlen hand
      -- `no_stray` below b: counts of early bins inside `arr` are exact
      have hcntearly : ∀ c' < b, Multiset.countP (fun p => binOf key layout p = c')
          (↑arr : Multiset α) ≤ mcnt key layout M c' := by
        intro c' hc'
        have hcc := countP_chain (fun p => binOf key layout p = c') hch.hms
        rw [if_neg (by omega : ¬ binOf key layout hand = c'),
          if_neg (by have := hch.hv0; omega : ¬ binOf key layout v0 = c')] at hcc
        have hmm : mcnt key layout M c' =
          Multiset.countP (fun p => binOf key layout p = c') M := rfl
        omega
      have hhand1b : b ≤ binOf key layout hand1 := by
        rw [hhand1]
        exact no_stray key layout M b arr hch.hearly hcntearly
          j hjlen (le_trans (psum_mono key layout M (by omega)) hjge)
      have hch1 : ChInv key layout M B b iter v0 bins1 arr1 hand1 := by
        refine ⟨?_, ?_, ?_, ?_, ?_, ?_, ?_, hhand1b, hch.hv0, hch.hv0mem,
          hch.hiterlo, hch.hiterhi, ?_⟩
        · rw [hmsstep]; exact hch.hms
        · rw [hbins1, length_setE]; exact hch.hlen
        · intro d hd
          by_cases hdc : d = c
          · subst hdc; rw [hb1c]; exact hch.hcount c hd
          · rw [hb1ne d hdc]; exact hch.hcount d hd
        · intro d hd hpos
          by_cases hdc : d = c
          · subst hdc
            rw [hb1c] at hpos ⊢
            exact hch.hoff c hd hpos
          · rw [hb1ne d hdc] at hpos ⊢
            exact hch.hoff d hd hpos
        · intro c' hc' i h1 h2
          have hine : i ≠ j := by
            have h3 : i < psum key layout M b :=
              lt_of_lt_of_le h2 (psum_mono key layout M (by omega))
            have h4 : psum key layout M b ≤ psum key layout M (b + 1) :=
              psum_mono key layout M (by omega)
            omega
          rw [ha1ne i hine]
          exact hch.hearly c' hc' i h1 h2
        · intro d hd hdB
          by_cases hdc : d = c
          · subst hdc
            rw [hb1c]
            show (getE bins c).index + 1 ≤ (getE bins c).count
            omega
          · rw [hb1ne d hdc]; exact hch.hcur d hd hdB
        · intro d hd hdB i h1 h2
          by_cases hdc : d = c
          · subst hdc
            rw [hb1c] at h2
            have h2' : i < psum key layout M c + ((getE bins c).index + 1) := h2
            rcases Nat.lt_or_ge i (psum key layout M c + (getE bins c).index) with h3 | h3
            · have hine : i ≠ j := by omega
              rw [ha1ne i hine]
              exact hch.hplaced c hd hdB i h1 h3
            · have hij : i = j := by omega
              rw [hij, ha1j, hcdef]
          · rw [hb1ne d hdc] at h2
            have hine : i ≠ j := by
              rcases Nat.lt_or_ge d c with h4 | h4
              · have h5 : psum key layout M d + (getE bins d).index ≤
                    psum key layout M c := by
                  have h6 := hch.hcur d hd hdB
                  have h7 := hch.hcount d hdB
                  have h8 := psum_mono key layout M (show d + 1 ≤ c by omega)
                  rw [psum_succ] at h8
                  omega
                omega
              · have h4' : c < d := by omega
                have h5 : psum key layout M (c + 1) ≤ psum key layout M d :=
                  psum_mono key layout M (by omega)
                omega
            rw [ha1ne i hine]
            exact hch.hplaced d hd hdB i h1 h2
        · have hine : iter ≠ j := by omega
          rw [ha1ne iter hine]
          exact hch.hatiter
      have hmeaslt : meas B bins1 < meas B bins := by
        rw [meas, meas]
        refine Finset.sum_lt_sum (fun d hd => ?_) ⟨c, Finset.mem_range.mpr hcB, ?_⟩
        · by_cases hdc : d = c
          · subst hdc
            rw [hb1c]
            show (getE bins c).count - ((getE bins c).index + 1) ≤
              (getE bins c).count - (getE bins c).index
            omega
          · rw [hb1ne d hdc]
        · rw [hb1c]
          show (getE bins c).count - ((getE bins c).index + 1) <
            (getE bins c).count - (getE bins c).index
          omega
      obtain ⟨bins', arr', hand', heq, hch', hhome', hfr1, hfr2, hfr3⟩ :=
        chase_spec key layout M B b iter v0 hinb hbB fuel bins1 arr1 hand1 hch1
          (by omega)
      refine ⟨bins', arr', hand', heq, hch', hhome', ?_, ?_, ?_⟩
      · intro d hd
        rw [hfr1 d hd, hb1ne d (by omega)]
      · intro d
        rcases hfr2 d with ⟨hoffp, hcntp⟩
        by_cases hdc : d = c
        · subst hdc
          rw [hoffp, hcntp, hb1c]
          exact ⟨rfl, rfl⟩
        · rw [hoffp, hcntp, hb1ne d hdc]
          exact ⟨rfl, rfl⟩
      · intro i hi
        rw [hfr3 i hi, ha1ne i (by omega)]

/-! ### The middle loop draining one bin -/

theorem presum_eq_sum_range (f : ℕ → ℕ) : ∀ n, presum f n = ∑ c ∈ Finset.range n, f c
  | 0 => by rw [presum, Finset.sum_range_zero]
  | n + 1 => by
    rw [presum_succ_eq, Finset.sum_range_succ, presum_eq_sum_range f n]

theorem meas_le {α : Type} [Inhabited α] (key : α → ℤ) (layout : BinLayout)
    (M : Multiset α) (B : ℕ) (bins : List Bin)
    (hcount : ∀ c < B, (getE bins c).count = mcnt key layout M c) :
    meas B bins ≤ psum key layout M B := by
  rw [meas, psum, presum_eq_sum_range]
  refine Finset.sum_le_sum (fun c hc => ?_)
  rw [Finset.mem_range] at hc
  rw [hcount c hc]
  omega

theorem placeLoop_succ {α : Type} [Inhabited α] (key : α → ℤ) (layout : BinLayout)
    (b endPos fuel : ℕ) (bins : List Bin) (arr : List α) (iter : ℕ) :
    placeLoop key layout b endPos (fuel + 1) bins arr iter =
      if iter < endPos then
        match chase key layout b (arr.length + 1) bins arr (getE arr iter) with
        | none => none
        | some (bins1, arr1, v) =>
          placeLoop key layout b endPos fuel
            (setE bins1 b
              ⟨(getE bins1 b).offset, (getE bins1 b).count, (getE bins1 b).index + 1⟩)
            (setE arr1 iter v)
            (getE bins1 b).cursor
      else some (bins, arr) := rfl

theorem placeLoop_spec {α : Type} [Inhabited α] (key : α → ℤ) (layout : BinLayout)
    (M : Multiset α) (B b : ℕ)
    (hinb : ∀ p ∈ M, binOf key layout p < B) (hbB : b < B) :
    ∀ (fuel : ℕ) (bins : List Bin) (arr : List α) (iter : ℕ),
      MidInv key layout M B b bins arr iter →
      mcnt key layout M b + 1 - (getE bins b).index < fuel →
      ∃ bins' arr' iter',
        placeLoop key layout b (psum key layout M b + mcnt key layout M b) fuel bins arr iter
          = some (bins', arr') ∧
        MidInv key layout M B b bins' arr' iter' ∧
        psum key layout M b + mcnt key layout M b ≤ iter'
  | 0, bins, arr, iter, _, hfuel => by omega
  | fuel + 1, bins, arr, iter, hmid, hfuel => by
    rw [placeLoop_succ]
    by_cases hguard : iter < psum key layout M b + mcnt key layout M b
    · rw [if_pos hguard]
      have hlenarr : arr.length = Multiset.card M := by
        rw [← hmid.harr, Multiset.coe_card]
      have hpsumB : psum key layout M B = Multiset.card M := psum_top key layout M B hinb
      have hpsb1 : psum key layout M (b + 1) =
          psum key layout M b + mcnt key layout M b := psum_succ key layout M b
      have hpsbB : psum key layout M (b + 1) ≤ psum key layout M B :=
        psum_mono key layout M (by omega)
      have hiterlo : psum key layout M b ≤ iter := by
        rcases hmid.hiter with h | h
        · omega
        · omega
      have hiterlen : iter < arr.length := by omega
      have hcntexact : ∀ c' < b, Multiset.countP (fun p => binOf key layout p = c')
          (↑arr : Multiset α) ≤ mcnt key layout M c' := by
        intro c' hc'
        rw [hmid.harr]
        exact le_refl _
      have hv0b : b ≤ binOf key layout (getE arr iter) :=
        no_stray key layout M b arr hmid.hearly hcntexact iter hiterlen hiterlo
      have hv0mem : getE arr iter ∈ M := by
        rw [← hmid.harr]
        exact getE_mem arr hiterlen
      have hch : ChInv key layout M B b iter (getE arr iter) bins arr (getE arr iter) := by
        refine ⟨by rw [hmid.harr], hmid.hlen, hmid.hcount, hmid.hoff, hmid.hearly,
          hmid.hcur, hmid.hplaced, hv0b, hv0b, hv0mem, hiterlo, hguard, rfl⟩
      have hmeas : meas B bins < arr.length + 1 := by
        have h1 := meas_le key layout M B bins hmid.hcount
        omega
      obtain ⟨bins1, arr1, v, heqc, hch1, hvb, hfr1, hfr2, hfr3⟩ :=
        chase_spec key layout M B b iter (getE arr iter) (fun p hp => hinb p hp) hbB
          (arr.length + 1) bins arr (getE arr iter) hch hmeas
      rw [heqc]
      have hb1 : getE bins1 b = getE bins b := hfr1 b (le_refl b)
      have hlenarr1 : arr1.length = Multiset.card M := length_chain hch1.hms
      have hiterlen1 : iter < arr1.length := by omega
      set idx := (getE bins b).index with hidx
      have hcurval : (getE bins1 b).cursor = psum key layout M b + idx := by
        rw [Bin.cursor, hb1, ← hidx]
        have hoffb : (getE bins b).offset = psum key layout M b := by
          refine hmid.hoff b hbB ?_
          rw [hmid.hcount b hbB]
          omega
        omega
      set bins2 := setE bins1 b
        ⟨(getE bins1 b).offset, (getE bins1 b).count, (getE bins1 b).index + 1⟩ with hbins2
      set arr2 := setE arr1 iter v with harr2
      have hblen1 : b < bins1.length := by rw [hch1.hlen]; exact hbB
      have hb2b : getE bins2 b =
          ⟨(getE bins1 b).offset, (getE bins1 b).count, (getE bins1 b).index + 1⟩ := by
        rw [hbins2]; exact getE_setE_self hblen1 _
      have hb2ne : ∀ d, d ≠ b → getE bins2 d = getE bins1 d := by
        intro d hd
        rw [hbins2]; exact getE_setE_ne bins1 (fun hh => hd hh.symm) _
      have ha2iter : getE arr2 iter = v := by
        rw [harr2]; exact getE_setE_self hiterlen1 _
      have ha2ne : ∀ i, i ≠ iter → getE arr2 i = getE arr1 i := by
        intro i hi
        rw [harr2]; exact getE_setE_ne arr1 (fun hh => hi hh.symm) _
      have ha1iter : getE arr1 iter = getE arr iter := hfr3 iter (by omega)
      have hidxle : idx ≤ mcnt key layout M b := by
        rcases hmid.hiter with h | h
        · omega
        · omega
      have hmid2 : MidInv key layout M B b bins2 arr2 (psum key layout M b + idx) := by
        refine ⟨?_, ?_, ?_, ?_, ?_, ?_, ?_, ?_, ?_, ?_, ?_, ?_, ?_⟩
        · -- multiset restored
          have h1 : getE arr1 iter ::ₘ (↑arr2 : Multiset α) = v ::ₘ (↑arr1 : Multiset α) := by
            rw [harr2]; exact multiset_setE arr1 iter hiterlen1 v
          rw [ha1iter] at h1
          have h2 := hch1.hms
          have h3 := h1.trans h2
          exact (Multiset.cons_inj_right _).mp h3
        · rw [hbins2, length_setE]; exact hch1.hlen
        · intro c hc
          by_cases hcb : c = b
          · subst hcb
            rw [hb2b]
            show (getE bins1 c).count = mcnt key layout M c
            exact hch1.hcount c hc
          · rw [hb2ne c hcb]; exact hch1.hcount c hc
        · intro c hc hpos
          by_cases hcb : c = b
          · subst hcb
            rw [hb2b] at hpos ⊢
            show (getE bins1 c).offset = psum key layout M c
            exact hch1.hoff c hc hpos
          · rw [hb2ne c hcb] at hpos ⊢
            exact hch1.hoff c hc hpos
        · intro c hc hzero
          by_cases hcb : c = b
          · subst hcb
            rw [hb2b] at hzero ⊢
            show (getE bins1 c).offset = 0
            have hz : (getE bins1 c).count = 0 := hzero
            rw [(hfr2 c).1]
            refine hmid.hoff0 c hc ?_
            rw [← (hfr2 c).2]
            exact hz
          · rw [hb2ne c hcb] at hzero ⊢
            rw [(hfr2 c).1]
            exact hmid.hoff0 c hc (by rw [← (hfr2 c).2]; exact hzero)
        · intro c hc i h1 h2
          have hine : i ≠ iter := by
            have h3 : i < psum key layout M b :=
              lt_of_lt_of_le h2 (psum_mono key layout M (by omega))
            omega
          rw [ha2ne i hine]
          exact hch1.hearly c hc i h1 h2
        · intro c hc hcB2
          rw [hb2ne c (by omega)]
          exact hch1.hcur c hc hcB2
        · intro c hc hcB2 i h1 h2
          rw [hb2ne c (by omega)] at h2
          have hine : i ≠ iter := by
            have h3 : psum key layout M (b + 1) ≤ psum key layout M c :=
              psum_mono key layout M (by omega)
            omega
          rw [ha2ne i hine]
          exact hch1.hplaced c hc hcB2 i h1 h2
        · intro c hc
          rw [hb2ne c (by omega), hfr1 c (by omega)]
          exact hmid.hcurE c hc
        · -- resolved prefix
          intro i hi1 hi2
          rcases Nat.lt_or_ge i iter with h3 | h3
          · rw [ha2ne i (by omega), hfr3 i (by omega)]
            exact hmid.hres i hi1 h3
          · have hii : i = iter := by
              rcases hmid.hiter with h | h
              · omega
              · omega
            rw [hii, ha2iter]
            exact hvb
        · right
          constructor
          · rw [hb2b]
            show 1 ≤ (getE bins1 b).index + 1
            omega
          · rw [hb2b]
            show psum key layout M b + idx + 1 = psum key layout M b + ((getE bins1 b).index + 1)
            rw [hb1, ← hidx]
            omega
        · omega
        · rw [hb2b]
          show (getE bins1 b).index + 1 ≤ mcnt key layout M b + 1
          rw [hb1, ← hidx]
          omega
      have hfuel2 : mcnt key layout M b + 1 - (getE bins2 b).index < fuel := by
        have h1 : (getE bins2 b).index = idx + 1 := by
          rw [hb2b]
          show (getE bins1 b).index + 1 = idx + 1
          rw [hb1, ← hidx]
        omega
      obtain ⟨bins', arr', iter', heq', hmid', hge'⟩ :=
        placeLoop_spec key layout M B b hinb hbB fuel bins2 arr2
          (psum key layout M b + idx) hmid2 hfuel2
      refine ⟨bins', arr', iter', ?_, hmid', hge'⟩
      show placeLoop key layout b (psum key layout M b + mcnt key layout M b) fuel
          (setE bins1 b
            ⟨(getE bins1 b).offset, (getE bins1 b).count, (getE bins1 b).index + 1⟩)
          (setE arr1 iter v) (getE bins1 b).cursor = some (bins', arr')
      rw [hcurval]
      exact heq'
    · rw [if_neg hguard]
      exact ⟨bins, arr, iter, rfl, hmid, by omega⟩

/-! ### The outer loop of the cycle-chase phase -/

theorem binPass_succ {α : Type} [Inhabited α] (key : α → ℤ) (layout : BinLayout)
    (k b : ℕ) (bins : List Bin) (arr : List α) :
    binPass key layout (k + 1) b bins arr =
      if (getE bins b).count ≤ (getE bins b).index then
        binPass key layout k (b + 1) bins arr
      else
        match placeLoop key layout b (getE bins b).stop (arr.length + 2) bins arr
            (getE bins b).cursor with
        | none => none
        | some (bins1, arr1) => binPass key layout k (b + 1) bins1 arr1 := rfl

theorem binPass_spec {α : Type} [Inhabited α] (key : α → ℤ) (layout : BinLayout)
    (M : Multiset α) (B : ℕ) (hinb : ∀ p ∈ M, binOf key layout p < B) :
    ∀ (k b : ℕ) (bins : List Bin) (arr : List α),
      Inv key layout M B b bins arr →
      b + k + 1 = B →
      ∃ bins' arr',
        binPass key layout k b bins arr = some (bins', arr') ∧
        Inv key layout M B (B - 1) bins' arr'
  | 0, b, bins, arr, hinv, hk => by
    rw [binPass]
    exact ⟨bins, arr, rfl, by rw [show B - 1 = b by omega]; exact hinv⟩
  | k + 1, b, bins, arr, hinv, hk => by
    rw [binPass_succ]
    have hbB : b < B := by omega
    have hcnt : (getE bins b).count = mcnt key layout M b := hinv.hcount b hbB
    by_cases hskip : (getE bins b).count ≤ (getE bins b).index
    · rw [if_pos hskip]
      have hidxeq : (getE bins b).index = (getE bins b).count :=
        le_antisymm (hinv.hcur b (le_refl b) hbB) hskip
      have hinv' : Inv key layout M B (b + 1) bins arr := by
        refine ⟨hinv.harr, hinv.hlen, hinv.hcount, hinv.hoff, hinv.hoff0, ?_, ?_, ?_, ?_⟩
        · intro c hc i h1 h2
          rcases Nat.lt_or_ge c b with hcb | hcb
          · exact hinv.hearly c hcb i h1 h2
          · have hcb' : c = b := by omega
            subst hcb'
            refine hinv.hplaced c (le_refl c) hbB i h1 ?_
            rw [psum_succ] at h2
            omega
        · intro c h1 h2
          exact hinv.hcur c (by omega) h2
        · intro c h1 h2 i h3 h4
          exact hinv.hplaced c (by omega) h2 i h3 h4
        · intro c hc
          rcases Nat.lt_or_ge c b with hcb | hcb
          · exact hinv.hcurE c hcb
          · have hcb' : c = b := by omega
            subst hcb'
            omega
      exact binPass_spec key layout M B hinb k (b + 1) bins arr hinv' (by omega)
    · rw [if_neg hskip]
      push_neg at hskip
      have hmpos : 0 < mcnt key layout M b := by omega
      have hoffb : (getE bins b).offset = psum key layout M b :=
        hinv.hoff b hbB (by omega)
      have hstop : (getE bins b).stop = psum key layout M b + mcnt key layout M b := by
        rw [Bin.stop, hoffb, hcnt]
      have hcurs : (getE bins b).cursor = psum key layout M b + (getE bins b).index := by
        rw [Bin.cursor, hoffb]
      have hmid : MidInv key layout M B b bins arr
          (psum key layout M b + (getE bins b).index) := by
        refine ⟨hinv.harr, hinv.hlen, hinv.hcount, hinv.hoff, hinv.hoff0, hinv.hearly,
          ?_, ?_, hinv.hcurE, ?_, Or.inl rfl, ?_, ?_⟩
        · intro c h1 h2
          exact hinv.hcur c (by omega) h2
        · intro c h1 h2 i h3 h4
          exact hinv.hplaced c (by omega) h2 i h3 h4
        · intro i h1 h2
          exact hinv.hplaced b (le_refl b) hbB i h1 h2
        · omega
        · omega
      have hlenarr : arr.length = Multiset.card M := by
        rw [← hinv.harr, Multiset.coe_card]
      have hmle : mcnt key layout M b ≤ Multiset.card M := by
        rw [mcnt]
        exact Multiset.countP_le_card _ _
      obtain ⟨bins1, arr1, iter', heqp, hmid', hge'⟩ :=
        placeLoop_spec key layout M B b hinb hbB (arr.length + 2) bins arr
          (psum key layout M b + (getE bins b).index) hmid (by omega)
      have hinv' : Inv key layout M B (b + 1) bins1 arr1 := by
        refine ⟨hmid'.harr, hmid'.hlen, hmid'.hcount, hmid'.hoff, hmid'.hoff0,
          ?_, ?_, ?_, ?_⟩
        · intro c hc i h1 h2
          rcases Nat.lt_or_ge c b with hcb | hcb
          · exact hmid'.hearly c hcb i h1 h2
          · have hcb' : c = b := by omega
            subst hcb'
            refine hmid'.hres i h1 ?_
            rw [psum_succ] at h2
            omega
        · intro c h1 h2
          exact hmid'.hcur c (by omega) h2
        · intro c h1 h2 i h3 h4
          exact hmid'.hplaced c (by omega) h2 i h3 h4
        · intro c hc
          rcases Nat.lt_or_ge c b with hcb | hcb
          · exact hmid'.hcurE c hcb
          · have hcb' : c = b := by omega
            subst hcb'
            have h5 := hmid'.hidxb
            have h6 := hmid'.hcount c hbB
            omega
      obtain ⟨bins', arr', heqb, hfin⟩ :=
        binPass_spec key layout M B hinb k (b + 1) bins1 arr1 hinv' (by omega)
      refine ⟨bins', arr', ?_, hfin⟩
      rw [hstop, hcurs, heqp]
      exact heqb

/-! ### Assembling `sort_by_bins` -/

theorem presum_congr_below (f g : ℕ → ℕ) :
    ∀ c, (∀ d < c, f d = g d) → presum f c = presum g c
  | 0, _ => rfl
  | c + 1, h => by
    rw [presum_succ_eq, presum_succ_eq,
      presum_congr_below f g c (fun d hd => h d (by omega)), h c (by omega)]

theorem getE_replicate (n c : ℕ) :
    getE (List.replicate n (⟨0, 0, 0⟩ : Bin)) c = ⟨0, 0, 0⟩ := by
  unfold getE
  rw [List.getD_eq_getElem?_getD, List.getElem?_replicate]
  split <;> rfl

theorem binOf_lt_binCount {α : Type} [Inhabited α] (key : α → ℤ) (l : List α)
    (hne : l ≠ []) (hk : KeysI32 key l) :
    ∀ p ∈ l, binOf key (layoutOf key l) p < binCountOf key l := by
  intro p hp
  have h1 : minKeyOf key l ≤ key p := minKeyOf_le key l hp
  have h2 : key p ≤ maxKeyOf key l := le_maxKeyOf key l hp
  have hmin := i32_minKeyOf key l hne hk
  have hmax := i32_maxKeyOf key l hne hk
  rw [binCountOf]
  have hmono := index_mono (layoutOf key l) (a := key p) (b := maxKeyOf key l)
    h1 h2 (by
      show maxKeyOf key l - (layoutOf key l).min_key < 2 ^ 64
      have hM : (layoutOf key l).min_key = minKeyOf key l := rfl
      rw [hM]
      unfold I32 at hmin hmax
      omega)
  have hbinOf : binOf key (layoutOf key l) p = (layoutOf key l).index (key p) := rfl
  omega

theorem sortByBins_eq {α : Type} [Inhabited α] (key : α → ℤ) (l : List α) :
    sortByBins key l =
      if l.isEmpty then some (l, [])
      else if mpbcOf key l ≤ 1 then some (l, [⟨0, l.length, 0⟩])
      else
        match binPass key (layoutOf key l)
            ((prefixLoop key (layoutOf key l) (binCountOf key l) 0
              (countPass key (layoutOf key l) l
                (List.replicate (binCountOf key l) ⟨0, 0, 0⟩)) 0 l).1.length - 1) 0
            (prefixLoop key (layoutOf key l) (binCountOf key l) 0
              (countPass key (layoutOf key l) l
                (List.replicate (binCountOf key l) ⟨0, 0, 0⟩)) 0 l).1
            (prefixLoop key (layoutOf key l) (binCountOf key l) 0
              (countPass key (layoutOf key l) l
                (List.replicate (binCountOf key l) ⟨0, 0, 0⟩)) 0 l).2.2 with
        | none => none
        | some (bins3, arr3) => some (arr3, bins3) := rfl

theorem deriveInline_eq_none_iff {α : Type} [Inhabited α] (key : α → ℤ) (l : List α) :
    deriveInline key l = none ↔ (l.isEmpty = true ∨ mpbcOf key l ≤ 1) := by
  rw [deriveInline]
  by_cases h1 : l.isEmpty
  · rw [if_pos h1]; simp [h1]
  · rw [if_neg h1]
    by_cases h2 : mpbcOf key l ≤ 1
    · rw [if_pos h2]; simp [h1, h2]
    · rw [if_neg h2]; simp [h1, h2]

theorem deriveInline_eq_some {α : Type} [Inhabited α] (key : α → ℤ) (l : List α)
    (hne : ¬ l.isEmpty = true) (hmp : ¬ mpbcOf key l ≤ 1) :
    deriveInline key l = some (layoutOf key l) := by
  rw [deriveInline, if_neg hne, if_neg hmp]

/-- Portmanteau correctness of `sort_by_bins`: totality, permutation,
partition/coverage, cursor bounds and empty-bin offsets, on every path. -/
theorem sortByBins_spec {α : Type} [Inhabited α] (key : α → ℤ) (l : List α)
    (hk : KeysI32 key l) :
    ∃ arr bins, sortByBins key l = some (arr, bins) ∧
      (↑arr : Multiset α) = (↑l : Multiset α) ∧
      arr.length = l.length ∧
      presum (fun c => (getE bins c).count) bins.length = l.length ∧
      (∀ c < bins.length, 0 < (getE bins c).count →
        (getE bins c).offset = presum (fun d => (getE bins d).count) c) ∧
      (∀ c < bins.length, (getE bins c).count = 0 → (getE bins c).offset = 0) ∧
      (∀ c < bins.length, (getE bins c).index ≤ (getE bins c).count + 1) ∧
      (∀ layout, deriveInline key l = some layout →
        ∀ c < bins.length, ∀ i, (getE bins c).offset ≤ i →
          i < (getE bins c).offset + (getE bins c).count →
          binOf key layout (getE arr i) = c) ∧
      (deriveInline key l = none → bins.length ≤ 1) := by
  by_cases hemp : l.isEmpty
  · -- empty input
    have hnil : l = [] := by
      cases l with
      | nil => rfl
      | cons a t => simp [List.isEmpty] at hemp
    refine ⟨l, [], by rw [sortByBins_eq, if_pos hemp], rfl, rfl, ?_, ?_, ?_, ?_, ?_, ?_⟩
    · rw [hnil]; rfl
    · intro c hc; simp at hc
    · intro c hc; simp at hc
    · intro c hc; simp at hc
    · intro layout hD
      rw [(deriveInline_eq_none_iff key l).mpr (Or.inl hemp)] at hD
      cases hD
    · intro _; simp
  · by_cases hmp : mpbcOf key l ≤ 1
    · -- single-bin skip branch
      refine ⟨l, [⟨0, l.length, 0⟩], by rw [sortByBins_eq, if_neg hemp, if_pos hmp],
        rfl, rfl, ?_, ?_, ?_, ?_, ?_, ?_⟩
      · show presum (fun c => (getE [(⟨0, l.length, 0⟩ : Bin)] c).count) 1 = l.length
        rw [presum_succ_eq]
        show 0 + l.length = l.length
        omega
      · intro c hc
        have hc0 : c = 0 := by
          simp only [List.length_singleton] at hc
          omega
        subst hc0
        intro _
        rfl
      · intro c hc hz
        have hc0 : c = 0 := by
          simp only [List.length_singleton] at hc
          omega
        subst hc0
        rfl
      · intro c hc
        have hc0 : c = 0 := by
          simp only [List.length_singleton] at hc
          omega
        subst hc0
        show (0 : ℕ) ≤ l.length + 1
        omega
      · intro layout hD
        rw [(deriveInline_eq_none_iff key l).mpr (Or.inr hmp)] at hD
        cases hD
      · intro _
        simp
    · -- binning path
      have hne : l ≠ [] := by
        cases l with
        | nil => simp [List.isEmpty] at hemp
        | cons a t => exact List.cons_ne_nil a t
      set layout := layoutOf key l with hlayout
      set B := binCountOf key l with hB
      have hB1 : 1 ≤ B := by rw [hB, binCountOf]; omega
      have hinbl : ∀ p ∈ l, binOf key layout p < B := binOf_lt_binCount key l hne hk
      have hinb : ∀ p ∈ (↑l : Multiset α), binOf key layout p < B := by
        intro p hp
        exact hinbl p (by exact hp)
      set bins0 := List.replicate B (⟨0, 0, 0⟩ : Bin) with hbins0
      have hlen0 : bins0.length = B := List.length_replicate ..
      have hget0 : ∀ c, getE bins0 c = ⟨0, 0, 0⟩ := fun c => getE_replicate B c
      set bins1 := countPass key layout l bins0 with hbins1
      obtain ⟨hlen1, hoff1, hidx1, hcnt1⟩ := countPass_spec key layout l bins0
        (by rw [hlen0]; exact hinbl)
      rw [← hbins1] at hlen1
      rcases hr : prefixLoop key layout B 0 bins1 0 l with ⟨bins2, off2, arr2⟩
      have hpre := prefixLoop_spec key layout B 0 bins1 0 l
        (by omega)
        (by rw [presum])
        bins2 off2 arr2 hr
      obtain ⟨hlen2, hms2, hlenarr2, hcnt2, hidx2, hoffpos2, hoffz2⟩ := hpre
      have hcnt2' : ∀ c < B, (getE bins2 c).count = mcnt key layout (↑l) c := by
        intro c hc
        rw [hcnt2 c, hbins1, hcnt1 c, hget0 c]
        show 0 + Multiset.countP (fun p => binOf key layout p = c) (↑l) = _
        rw [mcnt]
        omega
      have hidx2' : ∀ c, (getE bins2 c).index = 0 := by
        intro c
        rw [hidx2 c, hbins1, hidx1 c, hget0 c]
      have hlen2' : bins2.length = B := by
        rw [hlen2]; omega
      have hoffpos2' : ∀ c < B, 0 < (getE bins2 c).count →
          (getE bins2 c).offset = psum key layout (↑l) c := by
        intro c hc hpos
        have h1 := hoffpos2 c (by omega) (by omega)
          (by rw [← hcnt2 c]; exact hpos)
        rw [h1, psum]
        refine presum_congr_below _ _ c (fun d hd => ?_)
        rw [show (getE bins1 d).count = (getE bins2 d).count from (hcnt2 d).symm]
        exact hcnt2' d (by omega)
      have hoffz2' : ∀ c < B, (getE bins2 c).count = 0 → (getE bins2 c).offset = 0 := by
        intro c hc hz
        have h1 := hoffz2 c (Or.inr (Or.inr (by rw [← hcnt2 c]; exact hz)))
        rw [h1, hbins1, hoff1 c, hget0 c]
      have hinv0 : Inv key layout (↑l) B 0 bins2 arr2 := by
        refine ⟨hms2, hlen2', hcnt2', hoffpos2', hoffz2', ?_, ?_, ?_, ?_⟩
        · intro c hc; omega
        · intro c _ hcB; rw [hidx2' c]; omega
        · intro c _ hcB i h1 h2
          rw [hidx2' c] at h2
          omega
        · intro c hc; omega
      obtain ⟨bins', arr', heqb, hfin⟩ :=
        binPass_spec key layout (↑l) B hinb (B - 1) 0 bins2 arr2 hinv0 (by omega)
      have harr' : (↑arr' : Multiset α) = (↑l : Multiset α) := hfin.harr
      have hlenarr' : arr'.length = l.length := by
        have h1 : arr'.length = Multiset.card (↑l : Multiset α) := by
          rw [← harr', Multiset.coe_card]
        rw [h1, Multiset.coe_card]
      have hlenb' : bins'.length = B := hfin.hlen
      have hpsumB : psum key layout (↑l) B = l.length := by
        rw [psum_top key layout (↑l) B hinb, Multiset.coe_card]
      have hpres' : ∀ c ≤ B, presum (fun d => (getE bins' d).count) c =
          psum key layout (↑l) c := by
        intro c hc
        rw [psum]
        exact presum_congr_below _ _ c (fun d hd => hfin.hcount d (by omega))
      have hfinal : sortByBins key l = some (arr', bins') := by
        rw [sortByBins_eq, if_neg hemp, if_neg hmp]
        rw [← hlayout, ← hB, ← hbins0, ← hbins1, hr]
        show (match binPass key layout (bins2.length - 1) 0 bins2 arr2 with
          | none => none
          | some (bins3, arr3) => some (arr3, bins3)) = some (arr', bins')
        rw [hlen2', heqb]
      refine ⟨arr', bins', hfinal, harr', hlenarr', ?_, ?_, ?_, ?_, ?_, ?_⟩
      · rw [hlenb', hpres' B (le_refl B), hpsumB]
      · intro c hc hpos
        rw [hlenb'] at hc
        rw [hpres' c (by omega)]
        exact hfin.hoff c hc hpos
      · intro c hc hz
        rw [hlenb'] at hc
        exact hfin.hoff0 c hc hz
      · intro c hc
        rw [hlenb'] at hc
        rcases Nat.lt_or_ge c (B - 1) with h1 | h1
        · exact hfin.hcurE c h1
        · have h2 := hfin.hcur c (by omega) hc
          omega
      · intro layout0 hD c hc i hi1 hi2
        rw [deriveInline_eq_some key l hemp hmp] at hD
        have hlay0 : layout0 = layout := by
          rw [hlayout]
          exact (Option.some.inj hD).symm
        subst hlay0
        rw [hlenb'] at hc
        have hpos : 0 < (getE bins' c).count := by omega
        have hoffc : (getE bins' c).offset = psum key layout (↑l) c :=
          hfin.hoff c hc hpos
        have hcntc : (getE bins' c).count = mcnt key layout (↑l) c :=
          hfin.hcount c hc
        rw [hoffc] at hi1 hi2
        rw [hcntc] at hi2
        have hilen : i < arr'.length := by
          have h1 : psum key layout (↑l) c + mcnt key layout (↑l) c ≤
              psum key layout (↑l) B := by
            have h2 := psum_mono key layout (↑l) (show c + 1 ≤ B by omega)
            rw [psum_succ] at h2
            omega
          omega
        rcases Nat.lt_or_ge c (B - 1) with h1 | h1
        · refine hfin.hearly c h1 i hi1 ?_
          rw [psum_succ]
          omega
        · have hc1 : c = B - 1 := by omega
          subst hc1
          have hlow : B - 1 ≤ binOf key layout (getE arr' i) := by
            refine no_stray key layout (↑l) (B - 1) arr' hfin.hearly
              (fun c' hc' => by rw [harr']; exact le_refl _) i hilen hi1
          have hhigh : binOf key layout (getE arr' i) < B := by
            refine hinb (getE arr' i) ?_
            rw [← harr']
            exact getE_mem arr' hilen
          omega
      · intro hD
        rw [deriveInline_eq_some key l hemp hmp] at hD
        cases hD

/-! ### Claim theorems -/

/-- C1: for every input vector (of `i32`-keyed elements), the multiset of
elements after `sort_by_bins` equals the multiset of elements before the
call: no element is lost, duplicated, or mutated; the output is a
permutation of the input. -/
theorem c1_permutation {α : Type} [Inhabited α] (key : α → ℤ) (l : List α)
    (hk : KeysI32 key l) :
    ∃ arr bins, sortByBins key l = some (arr, bins) ∧
      (↑arr : Multiset α) = (↑l : Multiset α) := by
  obtain ⟨arr, bins, h1, h2, _⟩ := sortByBins_spec key l hk
  exact ⟨arr, bins, h1, h2⟩

/-- Witness for C1 at the repository's own test keys. -/
theorem c1_permutation_witness :
    ∃ arr bins,
      sortByBins (fun x : ℤ => x) [13, 1, 10, 4, 8, 7, 8, 10, 14] = some (arr, bins) ∧
      (↑arr : Multiset ℤ) = (↑([13, 1, 10, 4, 8, 7, 8, 10, 14] : List ℤ) : Multiset ℤ) :=
  c1_permutation (fun x : ℤ => x) [13, 1, 10, 4, 8, 7, 8, 10, 14] (by decide)

/-- C2: after `sort_by_bins`, every element in `[offset_b, offset_b+count_b)`
of a bin `b` maps to bin index `b` under the derived layout, and the
non-empty bins cover `[0, n)` as contiguous, non-overlapping ranges in
increasing bin-index order (each non-empty bin's offset is the sum of all
earlier bins' counts, and the counts sum to `n`). -/
theorem c2_partition {α : Type} [Inhabited α] (key : α → ℤ) (l : List α)
    (hk : KeysI32 key l) :
    ∃ arr bins, sortByBins key l = some (arr, bins) ∧
      (∀ layout, deriveInline key l = some layout →
        ∀ b < bins.length, ∀ i, (getE bins b).offset ≤ i →
          i < (getE bins b).offset + (getE bins b).count →
          binOf key layout (getE arr i) = b) ∧
      (∀ b < bins.length, 0 < (getE bins b).count →
        (getE bins b).offset = presum (fun d => (getE bins d).count) b) ∧
      presum (fun d => (getE bins d).count) bins.length = l.length := by
  obtain ⟨arr, bins, h1, _, _, h4, h5, _, _, h8, _⟩ := sortByBins_spec key l hk
  exact ⟨arr, bins, h1, h8, h5, h4⟩

/-- Witness for C2 at a concrete vector. -/
theorem c2_partition_witness :
    ∃ arr bins, sortByBins (fun x : ℤ => x) [7, 3, 0, 9, 4, 4, 1, 8] = some (arr, bins) ∧
      (∀ layout, deriveInline (fun x : ℤ => x) [7, 3, 0, 9, 4, 4, 1, 8] = some layout →
        ∀ b < bins.length, ∀ i, (getE bins b).offset ≤ i →
          i < (getE bins b).offset + (getE bins b).count →
          binOf (fun x : ℤ => x) layout (getE arr i) = b) ∧
      (∀ b < bins.length, 0 < (getE bins b).count →
        (getE bins b).offset = presum (fun d => (getE bins d).count) b) ∧
      presum (fun d => (getE bins d).count) bins.length =
        ([7, 3, 0, 9, 4, 4, 1, 8] : List ℤ).length :=
  c2_partition (fun x : ℤ => x) [7, 3, 0, 9, 4, 4, 1, 8] (by decide)

/-- C4 counterexample: on input `[0,1,2,3]` the drained bin 0 of the
returned table has cursor `index = 3` strictly exceeding its `count = 2`,
refuting "each bin's cursor never exceeds its count". -/
theorem c4_counterexample :
    ∃ r, sortByBins (fun x : ℤ => x) [0, 1, 2, 3] = some r ∧
      ¬ ((getE r.2 0).index ≤ (getE r.2 0).count) :=
  ⟨([0, 1, 2, 3], [⟨0, 2, 3⟩, ⟨2, 2, 0⟩]), rfl, by decide⟩

/-- C4 (amended): the cycle-chase phase of `sort_by_bins` terminates on
every input — `sort_by_bins` is a total function — total bin capacity
equals `n`, and every bin's cursor ends at most one past its count (the
final post-increment of a drained bin pushes its cursor to `count + 1`;
cursors advanced by chase swaps alone stay `≤ count`). -/
theorem c4_amended {α : Type} [Inhabited α] (key : α → ℤ) (l : List α)
    (hk : KeysI32 key l) :
    ∃ arr bins, sortByBins key l = some (arr, bins) ∧
      (∀ c < bins.length, (getE bins c).index ≤ (getE bins c).count + 1) ∧
      presum (fun d => (getE bins d).count) bins.length = l.length := by
  obtain ⟨arr, bins, h1, _, _, h4, _, _, h7, _⟩ := sortByBins_spec key l hk
  exact ⟨arr, bins, h1, h7, h4⟩

/-- Witness for the amended C4. -/
theorem c4_amended_witness :
    ∃ arr bins, sortByBins (fun x : ℤ => x) [1, 5, 9, 2, 7, 0] = some (arr, bins) ∧
      (∀ c < bins.length, (getE bins c).index ≤ (getE bins c).count + 1) ∧
      presum (fun d => (getE bins d).count) bins.length =
        ([1, 5, 9, 2, 7, 0] : List ℤ).length :=
  c4_amended (fun x : ℤ => x) [1, 5, 9, 2, 7, 0] (by decide)

/-- C6 counterexample: at `scale = 1`, `2^0 ≥ 1` yet `log2 1 = 1 > 0`, so
`log2 scale` is not the smallest power with `2^power ≥ scale`. -/
theorem c6_counterexample : (1 : ℕ) ≤ 2 ^ 0 ∧ ¬ (log2 1 ≤ 0) := by decide

/-- C6 (amended): for every `scale ≥ 1` (within the 64-bit range),
`log2 scale` is the bit length of `scale`: the smallest `power` such that
`2^power > scale` (equivalently `2^power ≥ scale + 1`), not
`2^power ≥ scale`. -/
theorem c6_amended (v : ℕ) (h1 : 1 ≤ v) (h2 : v < 2 ^ 64) :
    v < 2 ^ log2 v ∧ ∀ p, v < 2 ^ p → log2 v ≤ p := by
  rw [log2_eq_sizeBits]
  exact ⟨sizeBits_gt 64 v h2, fun p hp => sizeBits_min 64 v p hp⟩

/-- Witness for the amended C6. -/
theorem c6_amended_witness : 6 < 2 ^ log2 6 ∧ ∀ p, 6 < 2 ^ p → log2 6 ≤ p :=
  c6_amended 6 (by decide) (by decide)

/-- C7 counterexample: on keys `[0,0,11,11,0,11]` the middle bin is empty;
the running total of prior counts is 3, but the empty bin's offset field is
0 (the prefix pass skips empty bins before writing their offset). -/
theorem c7_counterexample :
    ∃ r, sortByBins (fun x : ℤ => x) [0, 0, 11, 11, 0, 11] = some r ∧
      (getE r.2 1).count = 0 ∧
      presum (fun d => (getE r.2 d).count) 1 = 3 ∧
      (getE r.2 1).offset ≠ 3 :=
  ⟨([0, 0, 0, 11, 11, 11], [⟨0, 3, 4⟩, ⟨0, 0, 0⟩, ⟨3, 3, 3⟩]), rfl, by decide,
    by decide, by decide⟩

/-- C7 (amended): after the prefix-sum pass of `sort_by_bins`, every bin
with `count == 0` keeps its initialized offset 0 — the pass `continue`s
past empty bins before assigning the running total. -/
theorem c7_amended {α : Type} [Inhabited α] (key : α → ℤ) (l : List α)
    (hk : KeysI32 key l) :
    ∃ arr bins, sortByBins key l = some (arr, bins) ∧
      ∀ c < bins.length, (getE bins c).count = 0 → (getE bins c).offset = 0 := by
  obtain ⟨arr, bins, h1, _, _, _, _, h6, _⟩ := sortByBins_spec key l hk
  exact ⟨arr, bins, h1, h6⟩

/-- Witness for the amended C7. -/
theorem c7_amended_witness :
    ∃ arr bins, sortByBins (fun x : ℤ => x) [0, 11, 0, 11, 11, 0] = some (arr, bins) ∧
      ∀ c < bins.length, (getE bins c).count = 0 → (getE bins c).offset = 0 :=
  c7_amended (fun x : ℤ => x) [0, 11, 0, 11, 11, 0] (by decide)

/-- Unfolding of `BinLayout::new` (an identity of the embedding). -/
theorem binLayoutNew_eq (rs re : ℤ) (n : ℕ) :
    BinLayout.new rs re n =
      if min (min (offsetI32 re rs + 1) (n >>> 1)) 8192 ≤ 1 then none
      else some ⟨rs, log2 ((offsetI32 re rs + 1) /
        min (min (offsetI32 re rs + 1) (n >>> 1)) 8192)⟩ := rfl

/-- C8 counterexample: with observed range `0..1` and `n = 4`,
`BinLayout::new` returns a layout while `sort_by_bins` takes its single-bin
skip branch, and with range `0..3`, `n = 4` both proceed but compute
different powers (2 vs 1): `BinLayout::new` works with `delta + 1` where
the inline derivation uses `delta`. -/
theorem c8_counterexample :
    (BinLayout.new 0 1 4).isSome = true ∧
    deriveInline (fun x : ℤ => x) [0, 0, 1, 1] = none ∧
    BinLayout.new 0 3 4 = some ⟨0, 2⟩ ∧
    deriveInline (fun x : ℤ => x) [0, 1, 2, 3] = some ⟨0, 1⟩ ∧
    (⟨0, 2⟩ : BinLayout).power ≠ (⟨0, 1⟩ : BinLayout).power := by decide

/-- C8 (amended): for a non-empty batch with no `i32` overflow in the key
spread, `BinLayout::new(min_key..max_key, n)` returns `None` iff
`min(delta + 1, n/2, 8192) ≤ 1`, whereas the derivation inlined in
`sort_by_bins` skips iff `min(delta, n/2, 8192) ≤ 1` (with
`delta = max_key - min_key`): the two conditions differ by the `+ 1`.
Whenever both produce a layout, the `min_key` fields agree, but the powers
are computed from `delta + 1` versus `delta` and can differ. -/
theorem c8_amended {α : Type} [Inhabited α] (key : α → ℤ) (l : List α)
    (hne : l.isEmpty = false) (hk : KeysI32 key l)
    (hspread : maxKeyOf key l - minKeyOf key l < 2 ^ 31) :
    (BinLayout.new (minKeyOf key l) (maxKeyOf key l) l.length = none ↔
      min (min ((maxKeyOf key l - minKeyOf key l).toNat + 1) (l.length >>> 1)) 8192 ≤ 1) ∧
    (deriveInline key l = none ↔
      min (min ((maxKeyOf key l - minKeyOf key l).toNat) (l.length >>> 1)) 8192 ≤ 1) ∧
    (∀ L1 L2, BinLayout.new (minKeyOf key l) (maxKeyOf key l) l.length = some L1 →
      deriveInline key l = some L2 → L1.min_key = L2.min_key) := by
  have hminmax : minKeyOf key l ≤ maxKeyOf key l := minKeyOf_le_maxKeyOf key l
  have hoffeq : offsetI32 (maxKeyOf key l) (minKeyOf key l) =
      (maxKeyOf key l - minKeyOf key l).toNat := by
    refine offsetI32_eq hminmax (by omega)
  have hdelta : deltaOf key l = (maxKeyOf key l - minKeyOf key l).toNat := by
    unfold deltaOf toUsize wrap32
    have h2 : (2 : ℤ) ^ 31 = 2147483648 := by norm_num
    omega
  have hmpbc : mpbcOf key l =
      min (min ((maxKeyOf key l - minKeyOf key l).toNat) (l.length >>> 1)) 8192 := by
    rw [mpbcOf, hdelta]
  refine ⟨?_, ?_, ?_⟩
  · rw [binLayoutNew_eq, hoffeq]
    by_cases h : min (min ((maxKeyOf key l - minKeyOf key l).toNat + 1)
        (l.length >>> 1)) 8192 ≤ 1
    · rw [if_pos h]
      exact ⟨fun _ => h, fun _ => rfl⟩
    · rw [if_neg h]
      exact ⟨fun hh => absurd hh (Option.some_ne_none _), fun hh => absurd hh h⟩
  · rw [deriveInline_eq_none_iff, hmpbc, hne]
    simp
  · intro L1 L2 h1 h2
    rw [binLayoutNew_eq] at h1
    have hL2 : L2 = layoutOf key l := by
      have h3 := deriveInline_eq_some key l (by rw [hne]; exact Bool.false_ne_true)
        (by
          intro hcon
          rw [(deriveInline_eq_none_iff key l).mpr (Or.inr hcon)] at h2
          cases h2)
      rw [h3] at h2
      exact (Option.some.inj h2).symm
    split at h1
    · cases h1
    · have hL1 := Option.some.inj h1
      rw [← hL1, hL2]
      rfl

/-- Witness for the amended C8. -/
theorem c8_amended_witness :
    (BinLayout.new (minKeyOf (fun x : ℤ => x) [0, 1, 2, 3])
        (maxKeyOf (fun x : ℤ => x) [0, 1, 2, 3]) ([0, 1, 2, 3] : List ℤ).length = none ↔
      min (min ((maxKeyOf (fun x : ℤ => x) [0, 1, 2, 3] -
        minKeyOf (fun x : ℤ => x) [0, 1, 2, 3]).toNat + 1)
        (([0, 1, 2, 3] : List ℤ).length >>> 1)) 8192 ≤ 1) ∧
    (deriveInline (fun x : ℤ => x) [0, 1, 2, 3] = none ↔
      min (min ((maxKeyOf (fun x : ℤ => x) [0, 1, 2, 3] -
        minKeyOf (fun x : ℤ => x) [0, 1, 2, 3]).toNat)
        (([0, 1, 2, 3] : List ℤ).length >>> 1)) 8192 ≤ 1) ∧
    (∀ L1 L2, BinLayout.new (minKeyOf (fun x : ℤ => x) [0, 1, 2, 3])
        (maxKeyOf (fun x : ℤ => x) [0, 1, 2, 3]) ([0, 1, 2, 3] : List ℤ).length = some L1 →
      deriveInline (fun x : ℤ => x) [0, 1, 2, 3] = some L2 → L1.min_key = L2.min_key) :=
  c8_amended (fun x : ℤ => x) [0, 1, 2, 3] rfl (by decide) (by decide)

/-- C9: on an empty input vector `sort_by_bins` returns an empty bin table
and leaves the vector unchanged, and no error is raised for any input
(the function is total, including degenerate single-bin inputs). -/
theorem c9_empty_total {α : Type} [Inhabited α] (key : α → ℤ) :
    sortByBins key ([] : List α) = some ([], []) ∧
      ∀ l : List α, KeysI32 key l → (sortByBins key l).isSome = true := by
  constructor
  · rfl
  · intro l hk
    obtain ⟨arr, bins, h1, _⟩ := sortByBins_spec key l hk
    rw [h1]
    rfl

/-- Witness for C9: the empty case and a degenerate single-bin input. -/
theorem c9_empty_total_witness :
    sortByBins (fun x : ℤ => x) ([] : List ℤ) = some ([], []) ∧
      (sortByBins (fun x : ℤ => x) [5, 5, 5, 5, 5]).isSome = true :=
  ⟨(c9_empty_total (fun x : ℤ => x)).1,
   (c9_empty_total (fun x : ℤ => x)).2 [5, 5, 5, 5, 5] (by decide)⟩

/-- C10: for `i32` keys `a ≥ b`, `Offset::offset(a, b)` returns exactly the
mathematical difference `a - b`: the implementation widens both operands to
`i64` before the wrapping subtraction, so no wraparound occurs for any pair
of `i32` values. -/
theorem c10_offset_i32 (a b : ℤ) (ha : I32 a) (hb : I32 b) (hle : b ≤ a) :
    (offsetI32 a b : ℤ) = a - b := by
  unfold I32 at ha hb
  unfold offsetI32 toUsize wrap64
  omega

/-- Witness for C10 at the extreme `i32` pair. -/
theorem c10_offset_i32_witness :
    (offsetI32 2147483647 (-2147483648) : ℤ) = 2147483647 - (-2147483648) :=
  c10_offset_i32 2147483647 (-2147483648) (by decide) (by decide) (by decide)

/-! ### Sub-range sorting: `sort_with_bins` -/

theorem getE_append_left {α : Type} [Inhabited α] (l1 l2 : List α) {i : ℕ}
    (h : i < l1.length) : getE (l1 ++ l2) i = getE l1 i := by
  unfold getE
  rw [List.getD_eq_getElem?_getD, List.getD_eq_getElem?_getD, List.getElem?_append_left h]

theorem getE_append_right {α : Type} [Inhabited α] (l1 l2 : List α) {i : ℕ}
    (h : l1.length ≤ i) : getE (l1 ++ l2) i = getE l2 (i - l1.length) := by
  unfold getE
  rw [List.getD_eq_getElem?_getD, List.getD_eq_getElem?_getD, List.getElem?_append_right h]

theorem getE_take {α : Type} [Inhabited α] (l : List α) {i k : ℕ} (h : i < k) :
    getE (l.take k) i = getE l i := by
  unfold getE
  rw [List.getD_eq_getElem?_getD, List.getD_eq_getElem?_getD, List.getElem?_take_of_lt h]

theorem getE_drop {α : Type} [Inhabited α] (l : List α) (k i : ℕ) :
    getE (l.drop k) i = getE l (k + i) := by
  unfold getE
  rw [List.getD_eq_getElem?_getD, List.getD_eq_getElem?_getD, List.getElem?_drop]

theorem seg_getE {α : Type} [Inhabited α] (arr : List α) (s e k : ℕ) (hk : k < e - s) :
    getE ((arr.drop s).take (e - s)) k = getE arr (s + k) := by
  rw [getE_take _ hk, getE_drop]

theorem seg_length {α : Type} (arr : List α) (s e : ℕ) (he : e ≤ arr.length) :
    ((arr.drop s).take (e - s)).length = e - s := by
  rw [List.length_take, List.length_drop]
  omega

theorem arr_decompose {α : Type} (arr : List α) (s e : ℕ) (hs : s ≤ e)
    (he : e ≤ arr.length) :
    arr = arr.take s ++ (arr.drop s).take (e - s) ++ arr.drop e := by
  have h1 : (arr.drop s).drop (e - s) = arr.drop e := by
    rw [List.drop_drop]
    rw [Nat.add_sub_cancel' hs]
  rw [List.append_assoc, h1.symm, List.take_append_drop, List.take_append_drop]

theorem sortRange_length {α : Type} [Inhabited α] (compare : α → α → Ordering)
    (arr : List α) (s e : ℕ) (hs : s ≤ e) (he : e ≤ arr.length) :
    (sortRange compare arr s e).length = arr.length := by
  unfold sortRange
  rw [List.length_append, List.length_append, List.length_insertionSort,
    seg_length arr s e he, List.length_take, List.length_drop]
  omega

theorem sortRange_multiset {α : Type} [Inhabited α] (compare : α → α → Ordering)
    (arr : List α) (s e : ℕ) (hs : s ≤ e) (he : e ≤ arr.length) :
    (↑(sortRange compare arr s e) : Multiset α) = (↑arr : Multiset α) := by
  unfold sortRange
  conv_rhs => rw [arr_decompose arr s e hs he]
  rw [← Multiset.coe_add, ← Multiset.coe_add, ← Multiset.coe_add, ← Multiset.coe_add]
  have hp : ((List.insertionSort (rLe compare) ((arr.drop s).take (e - s))) :
      Multiset α) = ((arr.drop s).take (e - s) : Multiset α) :=
    Multiset.coe_eq_coe.mpr (List.perm_insertionSort _ _)
  rw [hp]

theorem sortRange_getE_left {α : Type} [Inhabited α] (compare : α → α → Ordering)
    (arr : List α) (s e i : ℕ) (hi : i < s) (hs : s ≤ e) (he : e ≤ arr.length) :
    getE (sortRange compare arr s e) i = getE arr i := by
  unfold sortRange
  rw [List.append_assoc, getE_append_left _ _ (by rw [List.length_take]; omega),
    getE_take _ (by omega)]

theorem sortRange_getE_right {α : Type} [Inhabited α] (compare : α → α → Ordering)
    (arr : List α) (s e i : ℕ) (hi : e ≤ i) (hs : s ≤ e) (he : e ≤ arr.length) :
    getE (sortRange compare arr s e) i = getE arr i := by
  unfold sortRange
  have hlen : (arr.take s ++ List.insertionSort (rLe compare)
      ((arr.drop s).take (e - s))).length = e := by
    rw [List.length_append, List.length_insertionSort, seg_length arr s e he,
      List.length_take]
    omega
  rw [getE_append_right _ _ (by omega), hlen, getE_drop]
  congr 1
  omega

theorem sortRange_getE_mid {α : Type} [Inhabited α] (compare : α → α → Ordering)
    (arr : List α) (s e i : ℕ) (hi1 : s ≤ i) (hi2 : i < e) (he : e ≤ arr.length) :
    getE (sortRange compare arr s e) i =
      getE (List.insertionSort (rLe compare) ((arr.drop s).take (e - s))) (i - s) := by
  unfold sortRange
  have hlen : (arr.take s ++ List.insertionSort (rLe compare)
      ((arr.drop s).take (e - s))).length = e := by
    rw [List.length_append, List.length_insertionSort, seg_length arr s e he,
      List.length_take]
    omega
  rw [getE_append_left _ _ (by omega), getE_append_right _ _ (by rw [List.length_take]; omega)]
  congr 1
  rw [List.length_take]
  omega

/-- Any value inside the sorted middle range of `sortRange` originates at
some position of the same range of the input. -/
theorem sortRange_origin {α : Type} [Inhabited α] (compare : α → α → Ordering)
    (arr : List α) (s e i : ℕ) (hi1 : s ≤ i) (hi2 : i < e) (he : e ≤ arr.length) :
    ∃ k, s ≤ k ∧ k < e ∧ getE (sortRange compare arr s e) i = getE arr k := by
  rw [sortRange_getE_mid compare arr s e i hi1 hi2 he]
  have hlen : (List.insertionSort (rLe compare) ((arr.drop s).take (e - s))).length
      = e - s := by
    rw [List.length_insertionSort, seg_length arr s e he]
  have hmem : getE (List.insertionSort (rLe compare) ((arr.drop s).take (e - s))) (i - s)
      ∈ (arr.drop s).take (e - s) := by
    rw [← List.mem_insertionSort (r := rLe compare)]
    exact getE_mem _ (by omega)
  obtain ⟨k, hk, hkx⟩ := List.mem_iff_getElem.mp hmem
  rw [seg_length arr s e he] at hk
  refine ⟨s + k, by omega, by omega, ?_⟩
  rw [← getE_eq_getElem _ (by rw [seg_length arr s e he]; omega)] at hkx
  rw [← hkx, seg_getE arr s e k hk]

theorem sortBins_cons {α : Type} [Inhabited α] (compare : α → α → Ordering)
    (b : Bin) (bs : List Bin) (arr : List α) :
    sortBins compare (b :: bs) arr = sortBins compare bs
      (if 1 < b.count then sortRange compare arr b.offset (b.offset + b.count) else arr) :=
  rfl

/-- Effect of the per-bin sorting fold: the multiset and length are
preserved, positions outside every listed range are untouched, values in a
listed range originate in that range, and every listed range of size ≥ 2
ends up sorted. -/
theorem sortBins_go {α : Type} [Inhabited α] (compare : α → α → Ordering)
    (htrans : ∀ a b c, rLe compare a b → rLe compare b c → rLe compare a c)
    (htotal : ∀ a b, rLe compare a b ∨ rLe compare b a) :
    ∀ (bs : List Bin) (arr : List α),
      (∀ b ∈ bs, b.offset + b.count ≤ arr.length) →
      List.Pairwise (fun b1 b2 => b1.offset + b1.count ≤ b2.offset ∨
        b2.offset + b2.count ≤ b1.offset) bs →
      (↑(sortBins compare bs arr) : Multiset α) = (↑arr : Multiset α) ∧
      (sortBins compare bs arr).length = arr.length ∧
      (∀ i, (∀ b ∈ bs, i < b.offset ∨ b.offset + b.count ≤ i) →
        getE (sortBins compare bs arr) i = getE arr i) ∧
      (∀ i, ∀ b ∈ bs, b.offset ≤ i → i < b.offset + b.count →
        ∃ k, b.offset ≤ k ∧ k < b.offset + b.count ∧
          getE (sortBins compare bs arr) i = getE arr k) ∧
      (∀ b ∈ bs, 1 < b.count → ∀ i j, b.offset ≤ i → i < j → j < b.offset + b.count →
        rLe compare (getE (sortBins compare bs arr) i)
          (getE (sortBins compare bs arr) j))
  | [], arr, _, _ => by
    refine ⟨rfl, rfl, fun i _ => rfl, fun i b hb => absurd hb (List.not_mem_nil b),
      fun b hb => absurd hb (List.not_mem_nil b)⟩
  | b :: bs, arr, hran, hpw => by
    have hpwh : ∀ b' ∈ bs, b.offset + b.count ≤ b'.offset ∨
        b'.offset + b'.count ≤ b.offset := (List.pairwise_cons.mp hpw).1
    have hpwt := (List.pairwise_cons.mp hpw).2
    rw [sortBins_cons]
    by_cases hc : 1 < b.count
    · rw [if_pos hc]
      set s := b.offset with hs
      set e := b.offset + b.count with he
      have hse : s ≤ e := by omega
      have helen : e ≤ arr.length := hran b (List.mem_cons_self b bs)
      set arr1 := sortRange compare arr s e with harr1
      have hlen1 : arr1.length = arr.length := sortRange_length compare arr s e hse helen
      have ih := sortBins_go compare htrans htotal bs arr1
        (fun b' hb' => by rw [hlen1]; exact hran b' (List.mem_cons_of_mem b hb'))
        hpwt
      obtain ⟨ihms, ihlen, ihout, ihorig, ihsort⟩ := ih
      have houtb : ∀ i, s ≤ i → i < e → (∀ b' ∈ bs, i < b'.offset ∨
          b'.offset + b'.count ≤ i) := by
        intro i h1 h2 b' hb'
        rcases hpwh b' hb' with h | h
        · left; omega
        · right; omega
      refine ⟨?_, ?_, ?_, ?_, ?_⟩
      · rw [ihms, harr1, sortRange_multiset compare arr s e hse helen]
      · rw [ihlen, hlen1]
      · intro i hi
        have hib := hi b (List.mem_cons_self b bs)
        rw [ihout i (fun b' hb' => hi b' (List.mem_cons_of_mem b hb'))]
        rcases hib with h | h
        · exact sortRange_getE_left compare arr s e i h hse helen
        · exact sortRange_getE_right compare arr s e i h hse helen
      · intro i b' hb' h1 h2
        rcases List.mem_cons.mp hb' with hb0 | hbs
        · subst hb0
          rw [ihout i (houtb i h1 h2)]
          exact sortRange_origin compare arr s e i h1 h2 helen
        · obtain ⟨k, hk1, hk2, hk3⟩ := ihorig i b' hbs h1 h2
          refine ⟨k, hk1, hk2, ?_⟩
          rw [hk3]
          rcases hpwh b' hbs with h | h
          · exact sortRange_getE_right compare arr s e k (by omega) hse helen
          · exact sortRange_getE_left compare arr s e k (by omega) hse helen
      · intro b' hb' hcnt i j h1 h2 h3
        rcases List.mem_cons.mp hb' with hb0 | hbs
        · subst hb0
          rw [ihout i (houtb i h1 (by omega)), ihout j (houtb j (by omega) h3)]
          rw [sortRange_getE_mid compare arr s e i h1 (by omega) helen,
            sortRange_getE_mid compare arr s e j (by omega) h3 helen]
          haveI : IsTrans α (rLe compare) := ⟨htrans⟩
          haveI : IsTotal α (rLe compare) := ⟨htotal⟩
          have hsorted := List.sorted_insertionSort (rLe compare)
            ((arr.drop s).take (e - s))
          have hlenis : (List.insertionSort (rLe compare)
              ((arr.drop s).take (e - s))).length = e - s := by
            rw [List.length_insertionSort, seg_length arr s e helen]
          have hpair := List.pairwise_iff_getElem.mp hsorted (i - s) (j - s)
            (by omega) (by omega) (by omega)
          rw [getE_eq_getElem _ (by omega), getE_eq_getElem _ (by omega)]
          exact hpair
        · exact ihsort b' hbs hcnt i j h1 h2 h3
    · rw [if_neg hc]
      have ih := sortBins_go compare htrans htotal bs arr
        (fun b' hb' => hran b' (List.mem_cons_of_mem b hb')) hpwt
      obtain ⟨ihms, ihlen, ihout, ihorig, ihsort⟩ := ih
      refine ⟨ihms, ihlen, ?_, ?_, ?_⟩
      · intro i hi
        exact ihout i (fun b' hb' => hi b' (List.mem_cons_of_mem b hb'))
      · intro i b' hb' h1 h2
        rcases List.mem_cons.mp hb' with hb0 | hbs
        · subst hb0
          refine ⟨i, h1, h2, ?_⟩
          refine ihout i (fun b'' hb'' => ?_)
          rcases hpwh b'' hb'' with h | h
          · left; omega
          · right; omega
        · exact ihorig i b' hbs h1 h2
      · intro b' hb' hcnt i j h1 h2 h3
        rcases List.mem_cons.mp hb' with hb0 | hbs
        · subst hb0; omega
        · exact ihsort b' hbs hcnt i j h1 h2 h3

/-! ### Claims about `sort_with_bins` -/

theorem exists_region (f : ℕ → ℕ) :
    ∀ (B i : ℕ), i < presum f B →
      ∃ c, c < B ∧ presum f c ≤ i ∧ i < presum f (c + 1)
  | 0, i, h => by
    have h0 : presum f 0 = 0 := rfl
    omega
  | B + 1, i, h => by
    rcases Nat.lt_or_ge i (presum f B) with h1 | h1
    · obtain ⟨c, hc1, hc2, hc3⟩ := exists_region f B i h1
      exact ⟨c, by omega, hc2, hc3⟩
    · exact ⟨B, by omega, h1, h⟩

theorem binOf_strict {α : Type} [Inhabited α] (key : α → ℤ) (l : List α)
    (hk : KeysI32 key l) {x y : α} (hx : x ∈ l) (hy : y ∈ l)
    (h : binOf key (layoutOf key l) x < binOf key (layoutOf key l) y) :
    key x < key y := by
  by_contra hcon
  push_neg at hcon
  have hne : l ≠ [] := List.ne_nil_of_mem hx
  have hmin := i32_minKeyOf key l hne hk
  have hkx := hk x hx
  have h1 : binOf key (layoutOf key l) y ≤ binOf key (layoutOf key l) x := by
    show (layoutOf key l).index (key y) ≤ (layoutOf key l).index (key x)
    refine index_mono _ ?_ hcon ?_
    · show minKeyOf key l ≤ key y
      exact minKeyOf_le key l hy
    · show key x - minKeyOf key l < 2 ^ 64
      unfold I32 at hmin hkx
      omega
  omega

theorem rLe_intCmp (a b : ℤ) : rLe intCmp a b ↔ a ≤ b := by
  unfold rLe intCmp
  split_ifs with h1 h2
  · exact ⟨fun _ => by omega, fun _ => by decide⟩
  · exact ⟨fun h => absurd rfl h, fun hab => ((by omega : False)).elim⟩
  · exact ⟨fun _ => by omega, fun _ => by decide⟩

theorem intCmp_anti (a b : ℤ) (h : intCmp a b = Ordering.eq) : a = b := by
  unfold intCmp at h
  split_ifs at h with h1 h2
  omega

theorem intCmp_dual (a b : ℤ) : intCmp a b = Ordering.gt ↔ intCmp b a = Ordering.lt := by
  unfold intCmp
  split_ifs <;> first | (exfalso; omega) | decide

theorem intCmp_le_trans (a b c : ℤ) (h1 : rLe intCmp a b) (h2 : rLe intCmp b c) :
    rLe intCmp a c := by
  rw [rLe_intCmp] at h1 h2 ⊢
  omega

theorem intCmp_key (a b : ℤ) (h : a < b) : intCmp a b = Ordering.lt := by
  unfold intCmp
  rw [if_pos h]

theorem rLe_revCmp (a b : ℤ) : rLe revCmp a b ↔ b ≤ a := by
  unfold rLe revCmp
  split_ifs with h1 h2
  · exact ⟨fun _ => by omega, fun _ => by decide⟩
  · exact ⟨fun h => absurd rfl h, fun hab => ((by omega : False)).elim⟩
  · exact ⟨fun _ => by omega, fun _ => by decide⟩

theorem revCmp_anti (a b : ℤ) (h : revCmp a b = Ordering.eq) : a = b := by
  unfold revCmp at h
  split_ifs at h with h1 h2
  omega

theorem revCmp_dual (a b : ℤ) : revCmp a b = Ordering.gt ↔ revCmp b a = Ordering.lt := by
  unfold revCmp
  split_ifs <;> first | (exfalso; omega) | decide

theorem revCmp_le_trans (a b c : ℤ) (h1 : rLe revCmp a b) (h2 : rLe revCmp b c) :
    rLe revCmp a c := by
  rw [rLe_revCmp] at h1 h2 ⊢
  omega

/-- C3 counterexample: `revCmp` is a total-order comparator (antisymmetric,
dual, transitive), yet `sort_with_bins(revCmp)` differs from a full
comparison sort with `revCmp` on `[10,11,12,13]` — the binning groups by
key range first, so order is only guaranteed for key-compatible
comparators. -/
theorem c3_counterexample :
    (∀ a b : ℤ, revCmp a b = Ordering.eq → a = b) ∧
    (∀ a b : ℤ, revCmp a b = Ordering.gt ↔ revCmp b a = Ordering.lt) ∧
    (∀ a b c : ℤ, rLe revCmp a b → rLe revCmp b c → rLe revCmp a c) ∧
    sortWithBins (fun x : ℤ => x) revCmp [10, 11, 12, 13] ≠
      some (fullSort revCmp [10, 11, 12, 13]) :=
  ⟨revCmp_anti, revCmp_dual, revCmp_le_trans, by decide⟩

/-- C3 (amended): for every input vector (of `i32`-keyed elements) and
every comparator that is an antisymmetric total order *compatible with the
keys* (`key a < key b → cmp a b = lt`), `sort_with_bins(cmp)` produces
exactly the final order of a standard full comparison sort with `cmp`. -/
theorem c3_amended {α : Type} [Inhabited α] (key : α → ℤ)
    (compare : α → α → Ordering)
    (hanti : ∀ a b, compare a b = Ordering.eq → a = b)
    (hdual : ∀ a b, compare a b = Ordering.gt ↔ compare b a = Ordering.lt)
    (htrans : ∀ a b c, rLe compare a b → rLe compare b c → rLe compare a c)
    (hkey : ∀ a b, key a < key b → compare a b = Ordering.lt)
    (l : List α) (hk : KeysI32 key l) :
    sortWithBins key compare l = some (fullSort compare l) := by
  have htotal : ∀ a b, rLe compare a b ∨ rLe compare b a := by
    intro a b
    by_cases h : compare a b = Ordering.gt
    · right
      rw [hdual] at h
      show compare b a ≠ Ordering.gt
      rw [h]
      decide
    · left; exact h
  have hantisym : ∀ a b, rLe compare a b → rLe compare b a → a = b := by
    intro a b h1 h2
    cases hab : compare a b with
    | eq => exact hanti a b hab
    | lt => exact absurd ((hdual b a).mpr hab) h2
    | gt => exact absurd hab h1
  obtain ⟨arr, bins, heq, hms, hlenarr, htop, hoffp, hoff0, _, hmapD, hone⟩ :=
    sortByBins_spec key l hk
  rw [sortWithBins, heq]
  show some (sortBins compare bins arr) = some (fullSort compare l)
  congr 1
  have hbmem : ∀ b ∈ bins, ∃ c, c < bins.length ∧ b = getE bins c := by
    intro b hb
    obtain ⟨c, hc, hcx⟩ := List.mem_iff_getElem.mp hb
    exact ⟨c, hc, by rw [getE_eq_getElem bins hc, hcx]⟩
  have hran : ∀ b ∈ bins, b.offset + b.count ≤ arr.length := by
    intro b hb
    obtain ⟨c, hc, hbc⟩ := hbmem b hb
    subst hbc
    by_cases hz : (getE bins c).count = 0
    · rw [hz, hoff0 c hc hz]
      omega
    · rw [hoffp c hc (by omega)]
      have h1 : presum (fun d => (getE bins d).count) c + (getE bins c).count =
          presum (fun d => (getE bins d).count) (c + 1) := (presum_succ_eq _ c).symm
      have h2 : presum (fun d => (getE bins d).count) (c + 1) ≤
          presum (fun d => (getE bins d).count) bins.length :=
        presum_mono _ (by omega)
      omega
  have hpw : List.Pairwise (fun b1 b2 => b1.offset + b1.count ≤ b2.offset ∨
      b2.offset + b2.count ≤ b1.offset) bins := by
    rw [List.pairwise_iff_getElem]
    intro c1 c2 hc1 hc2 hlt
    rw [← getE_eq_getElem bins hc1, ← getE_eq_getElem bins hc2]
    by_cases hz1 : (getE bins c1).count = 0
    · left
      rw [hz1, hoff0 c1 hc1 hz1]
      omega
    · by_cases hz2 : (getE bins c2).count = 0
      · right
        rw [hz2, hoff0 c2 hc2 hz2]
        omega
      · left
        rw [hoffp c1 hc1 (by omega), hoffp c2 hc2 (by omega)]
        have h1 : presum (fun d => (getE bins d).count) c1 + (getE bins c1).count =
            presum (fun d => (getE bins d).count) (c1 + 1) := (presum_succ_eq _ c1).symm
        have h2 : presum (fun d => (getE bins d).count) (c1 + 1) ≤
            presum (fun d => (getE bins d).count) c2 := presum_mono _ (by omega)
        omega
  obtain ⟨gms, glen, gout, gorig, gsort⟩ :=
    sortBins_go compare htrans htotal bins arr hran hpw
  have hresperm : List.Perm (sortBins compare bins arr) (fullSort compare l) := by
    have h1 : List.Perm (sortBins compare bins arr) l :=
      Multiset.coe_eq_coe.mp (gms.trans hms)
    have h2 : List.Perm (fullSort compare l) l := List.perm_insertionSort _ _
    exact h1.trans h2.symm
  haveI : IsTrans α (rLe compare) := ⟨htrans⟩
  haveI : IsTotal α (rLe compare) := ⟨htotal⟩
  haveI : IsAntisymm α (rLe compare) := ⟨hantisym⟩
  have hpos_at : ∀ i, i < arr.length → ∃ c, c < bins.length ∧
      presum (fun d => (getE bins d).count) c ≤ i ∧
      i < presum (fun d => (getE bins d).count) (c + 1) := by
    intro i hi
    refine exists_region _ bins.length i ?_
    rw [htop, ← hlenarr]
    exact hi
  have horigin : ∀ i, i < arr.length → ∀ c, c < bins.length →
      presum (fun d => (getE bins d).count) c ≤ i →
      i < presum (fun d => (getE bins d).count) (c + 1) →
      ∃ k, presum (fun d => (getE bins d).count) c ≤ k ∧
        k < presum (fun d => (getE bins d).count) (c + 1) ∧
        getE (sortBins compare bins arr) i = getE arr k := by
    intro i hi c hc h1 h2
    have hps := presum_succ_eq (fun d => (getE bins d).count) c
    have hcnt : 0 < (getE bins c).count := by omega
    have hoffc : (getE bins c).offset = presum (fun d => (getE bins d).count) c :=
      hoffp c hc hcnt
    obtain ⟨k, hk1, hk2, hk3⟩ := gorig i (getE bins c) (getE_mem bins hc)
      (by omega) (by omega)
    exact ⟨k, by omega, by omega, hk3⟩
  have hsorted : List.Pairwise (rLe compare) (sortBins compare bins arr) := by
    rw [List.pairwise_iff_getElem]
    intro i j hi0 hj0 hij
    rw [← getE_eq_getElem _ hi0, ← getE_eq_getElem _ hj0]
    have hi : i < arr.length := by rw [← glen]; exact hi0
    have hj : j < arr.length := by rw [← glen]; exact hj0
    obtain ⟨ci, hci, hci1, hci2⟩ := hpos_at i hi
    obtain ⟨cj, hcj, hcj1, hcj2⟩ := hpos_at j hj
    rcases Nat.lt_trichotomy ci cj with hcc | hcc | hcc
    · -- distinct bins: key-compatible order
      cases hD : deriveInline key l with
      | none =>
        have := hone hD
        omega
      | some layout =>
        have hlay : layout = layoutOf key l := by
          by_cases hemp : l.isEmpty
          · rw [(deriveInline_eq_none_iff key l).mpr (Or.inl hemp)] at hD
            cases hD
          · by_cases hmp : mpbcOf key l ≤ 1
            · rw [(deriveInline_eq_none_iff key l).mpr (Or.inr hmp)] at hD
              cases hD
            · rw [deriveInline_eq_some key l hemp hmp] at hD
              exact (Option.some.inj hD).symm
        obtain ⟨ki, hki1, hki2, hki3⟩ := horigin i hi ci hci hci1 hci2
        obtain ⟨kj, hkj1, hkj2, hkj3⟩ := horigin j hj cj hcj hcj1 hcj2
        have hpsB : presum (fun d => (getE bins d).count) cj ≤
            presum (fun d => (getE bins d).count) bins.length := presum_mono _ (by omega)
        have hkilen : ki < arr.length := by
          have := presum_mono (fun d => (getE bins d).count)
            (show ci + 1 ≤ bins.length by omega)
          rw [htop, ← hlenarr] at this
          omega
        have hkjlen : kj < arr.length := by
          have := presum_mono (fun d => (getE bins d).count)
            (show cj + 1 ≤ bins.length by omega)
          rw [htop, ← hlenarr] at this
          omega
        have hmemki : getE arr ki ∈ l := by
          have h1 : getE arr ki ∈ arr := getE_mem arr hkilen
          rw [← Multiset.mem_coe, hms, Multiset.mem_coe] at h1
          exact h1
        have hmemkj : getE arr kj ∈ l := by
          have h1 : getE arr kj ∈ arr := getE_mem arr hkjlen
          rw [← Multiset.mem_coe, hms, Multiset.mem_coe] at h1
          exact h1
        have hιi : binOf key layout (getE arr ki) = ci := by
          have hcnt : 0 < (getE bins ci).count := by
            have := presum_succ_eq (fun d => (getE bins d).count) ci
            omega
          refine hmapD layout hD ci hci ki ?_ ?_
          · rw [hoffp ci hci hcnt]; omega
          · rw [hoffp ci hci hcnt]
            have := presum_succ_eq (fun d => (getE bins d).count) ci
            omega
        have hιj : binOf key layout (getE arr kj) = cj := by
          have hcnt : 0 < (getE bins cj).count := by
            have := presum_succ_eq (fun d => (getE bins d).count) cj
            omega
          refine hmapD layout hD cj hcj kj ?_ ?_
          · rw [hoffp cj hcj hcnt]; omega
          · rw [hoffp cj hcj hcnt]
            have := presum_succ_eq (fun d => (getE bins d).count) cj
            omega
        have hkeylt : key (getE arr ki) < key (getE arr kj) := by
          refine binOf_strict key l hk hmemki hmemkj ?_
          rw [← hlay, hιi, hιj]
          exact hcc
        rw [hki3, hkj3]
        show compare (getE arr ki) (getE arr kj) ≠ Ordering.gt
        rw [hkey _ _ hkeylt]
        decide
    · -- same bin: sorted by the injected sort
      subst hcc
      have hps := presum_succ_eq (fun d => (getE bins d).count) ci
      have hcnt2 : 1 < (getE bins ci).count := by omega
      have hoffc : (getE bins ci).offset = presum (fun d => (getE bins d).count) ci :=
        hoffp ci hci (by omega)
      exact gsort (getE bins ci) (getE_mem bins hci) hcnt2 i j (by omega) hij (by omega)
    · -- i < j in a later bin than j's: impossible
      exfalso
      have h1 : presum (fun d => (getE bins d).count) (cj + 1) ≤
          presum (fun d => (getE bins d).count) ci := presum_mono _ (by omega)
      omega
  have hsorted2 : List.Pairwise (rLe compare) (fullSort compare l) :=
    List.sorted_insertionSort (rLe compare) l
  exact List.eq_of_perm_of_sorted hresperm hsorted hsorted2

/-- Witness for the amended C3. -/
theorem c3_amended_witness :
    sortWithBins (fun x : ℤ => x) intCmp [5, 1, 4, 2, 8, 7, 3, 9, 0, 6] =
      some (fullSort intCmp [5, 1, 4, 2, 8, 7, 3, 9, 0, 6]) :=
  c3_amended (fun x : ℤ => x) intCmp intCmp_anti intCmp_dual intCmp_le_trans
    (fun a b h => intCmp_key a b h) [5, 1, 4, 2, 8, 7, 3, 9, 0, 6] (by decide)

/-- C5 counterexample: the code has no `len ≤ 16` short-circuit: on the
length-8 input `[0..7]` the binning path runs (4 bins), and with the
total-order comparator `revCmp` the output differs from a direct comparator
sort of the whole vector. -/
theorem c5_counterexample :
    ([0, 1, 2, 3, 4, 5, 6, 7] : List ℤ).length ≤ 16 ∧
    (sortByBins (fun x : ℤ => x) [0, 1, 2, 3, 4, 5, 6, 7]).map (fun r => r.2.length) =
      some 4 ∧
    sortWithBins (fun x : ℤ => x) revCmp [0, 1, 2, 3, 4, 5, 6, 7] ≠
      some (fullSort revCmp [0, 1, 2, 3, 4, 5, 6, 7]) := by decide

/-- C5 (amended): whenever the single-bin skip condition
`min(delta, len >>> 1, 8192) ≤ 1` holds — in particular for every vector of
length at most 3, and for constant-key vectors of any length — and for
every comparator, `sort_with_bins` bypasses binning: `sort_by_bins` leaves
the vector untouched with at most one bin, and the output equals a direct
comparator sort of the whole vector. -/
theorem c5_amended {α : Type} [Inhabited α] (key : α → ℤ)
    (compare : α → α → Ordering) (l : List α) (hmp : mpbcOf key l ≤ 1) :
    sortByBins key l = some (l, if l.isEmpty then [] else [⟨0, l.length, 0⟩]) ∧
    sortWithBins key compare l = some (fullSort compare l) := by
  by_cases hemp : l.isEmpty
  · have hnil : l = [] := by
      cases l with
      | nil => rfl
      | cons a t => simp [List.isEmpty] at hemp
    subst hnil
    exact ⟨rfl, rfl⟩
  · constructor
    · rw [sortByBins_eq, if_neg hemp, if_pos hmp, if_neg hemp]
    · rw [sortWithBins, sortByBins_eq, if_neg hemp, if_pos hmp]
      show some (sortBins compare [⟨0, l.length, 0⟩] l) = some (fullSort compare l)
      congr 1
      show (if 1 < l.length then sortRange compare l 0 (0 + l.length) else l) =
        fullSort compare l
      by_cases h2 : 1 < l.length
      · rw [if_pos h2, Nat.zero_add]
        unfold sortRange fullSort
        rw [List.take_zero, List.drop_zero, Nat.sub_zero, List.take_length,
          List.drop_length, List.nil_append, List.append_nil]
      · rw [if_neg h2]
        cases l with
        | nil => simp [List.isEmpty] at hemp
        | cons a t =>
          cases t with
          | nil => rfl
          | cons b t2 =>
            exfalso
            apply h2
            rw [List.length_cons, List.length_cons]
            omega

/-- Witness for the amended C5, at a constant-key vector longer than 3
(delta = 0, so the skip condition holds at any length). -/
theorem c5_amended_witness :
    (sortByBins (fun x : ℤ => x) [6, 6, 6, 6, 6, 6, 6] =
      some ([6, 6, 6, 6, 6, 6, 6], if ([6, 6, 6, 6, 6, 6, 6] : List ℤ).isEmpty then []
        else [⟨0, ([6, 6, 6, 6, 6, 6, 6] : List ℤ).length, 0⟩])) ∧
    sortWithBins (fun x : ℤ => x) intCmp [6, 6, 6, 6, 6, 6, 6] =
      some (fullSort intCmp [6, 6, 6, 6, 6, 6, 6]) :=
  c5_amended (fun x : ℤ => x) intCmp [6, 6, 6, 6, 6, 6, 6] (by decide)

end IKeySort
